import Mathlib

/-!
Verification of the circular-buffer deque of `deque.go`.

A shallow embedding of the circular-buffer deque of package `deque`
(`src/deque.go`) and theorems about it.

Modelling conventions.

* A Go slice `[]T` is a `List T`; every slice the program makes comes from
  `make([]T, size)`, so its capacity equals its length.
* Go's `int` is an `Int`.  Indices and lengths of slices stay far inside the
  64-bit range, so arithmetic on `head`, `tail` and `len(d.elements)` is exact;
  `nextPowerOf2` receives an arbitrary caller-supplied `int`, so its final
  `n + 1` wraps explicitly (`wrap64`).
* `&` and `|` on `int` are the two's-complement operations `Int.land` and
  `Int.lor`; `>>` on a signed `int` is the arithmetic shift `Int.shiftRight`.
* A run-time panic (index or slice bounds out of range, `make` with a negative
  length) is the result `none`.
* The method receiver `d *deque[T]` is passed as a value and every method that
  could write through the pointer returns the deque it leaves behind.
* The zero value of `T` is `default` of an `Inhabited T`.
-/

namespace Deque

/-! ## Go primitives -/

/-- Wrap-around of a mathematical integer into Go's 64-bit signed `int`. -/
def wrap64 (x : Int) : Int := (x + 2 ^ 63) % 2 ^ 64 - 2 ^ 63

/-- The zero value of `T`: `func zero[T any]() T { var z T; return z }`. -/
def zero (T : Type) [Inhabited T] : T := default

/-- The built-in `make([]T, size)`: a slice of `size` zero values; it panics on a
negative `size`. -/
def make (T : Type) [Inhabited T] (size : Int) : Option (List T) :=
  if 0 ≤ size then some (List.replicate size.toNat (zero T)) else none

/-- The index expression `xs[i]`: it panics unless `0 ≤ i < len(xs)`. -/
def index {T : Type} (xs : List T) (i : Int) : Option T :=
  if 0 ≤ i ∧ i < xs.length then xs[i.toNat]? else none

/-- The assignment `xs[i] = v`: it panics unless `0 ≤ i < len(xs)`. -/
def store {T : Type} (xs : List T) (i : Int) (v : T) : Option (List T) :=
  if 0 ≤ i ∧ i < xs.length then some (xs.set i.toNat v) else none

/-- The slice expression `xs[lo:hi]`: it panics unless `0 ≤ lo ≤ hi ≤ cap(xs)`,
and `cap(xs) = len(xs)` for every slice of this program. -/
def slice {T : Type} (xs : List T) (lo hi : Int) : Option (List T) :=
  if 0 ≤ lo ∧ lo ≤ hi ∧ hi ≤ xs.length then some ((xs.take hi.toNat).drop lo.toNat) else none

/-- The built-in `copy(dst, src)`: it overwrites the first
`min(len(dst), len(src))` elements of `dst` with those of `src` and returns that
number; the first component is `dst` after the call. -/
def copy {T : Type} (dst src : List T) : List T × Int :=
  (src.take (min dst.length src.length) ++ dst.drop (min dst.length src.length),
    ((min dst.length src.length : Nat) : Int))

/-! ## The program -/

/-- The constant `DefaultDequeSize`. -/
def DefaultDequeSize : Int := 16

/-- The struct `deque[T]`. -/
structure deque (T : Type) where
  elements : List T
  head : Int
  tail : Int
deriving DecidableEq, Repr

/-- The function `nextPowerOf2`. -/
def nextPowerOf2 (n : Int) : Int :=
  let n := Int.lor n (Int.shiftRight n 1)
  let n := Int.lor n (Int.shiftRight n 2)
  let n := Int.lor n (Int.shiftRight n 4)
  let n := Int.lor n (Int.shiftRight n 8)
  let n := Int.lor n (Int.shiftRight n 16)
  wrap64 (n + 1)

/-- The constructor `NewWithSize`. -/
def NewWithSize (T : Type) [Inhabited T] (initialSize : Int) : Option (deque T) :=
  let size := nextPowerOf2 initialSize
  (make T size).bind fun xs =>
  some { elements := xs, head := 0, tail := 0 }

/-- The constructor `New`. -/
def New (T : Type) [Inhabited T] : Option (deque T) :=
  NewWithSize T DefaultDequeSize

/-- The method `IsEmpty`. -/
def IsEmpty {T : Type} (d : deque T) : Bool :=
  decide (d.head = d.tail)

/-- The method `Len`. -/
def Len {T : Type} (d : deque T) : Int :=
  Int.land (d.tail - d.head) ((d.elements.length : Int) - 1)

/-- The method `copyToSliceWithSize`.  In the second branch `copy(xs[n:], ...)`
writes through the sub-slice into `xs` from offset `n` on. -/
def copyToSliceWithSize {T : Type} [Inhabited T] (d : deque T) (size : Int) :
    Option (List T) :=
  (make T size).bind fun xs =>
  if d.head < d.tail then
    (slice d.elements d.head d.tail).bind fun src =>
    some (copy xs src).1
  else
    (slice d.elements d.head d.elements.length).bind fun src =>
    let xs1 := (copy xs src).1
    let n := (copy xs src).2
    (slice xs1 n xs1.length).bind fun dst =>
    (slice d.elements 0 d.tail).bind fun src2 =>
    some (xs1.take n.toNat ++ (copy dst src2).1)

/-- The method `grow`; `len(d.elements) << 1` is `len(d.elements) * 2`. -/
def grow {T : Type} [Inhabited T] (d : deque T) : Option (deque T) :=
  let newSize := (d.elements.length : Int) * 2
  (copyToSliceWithSize d newSize).bind fun xs =>
  let newTail := (d.elements.length : Int)
  some { elements := xs, head := 0, tail := newTail }

/-- The method `AddFirst`. -/
def AddFirst {T : Type} [Inhabited T] (d : deque T) (element : T) : Option (deque T) :=
  let head := Int.land (d.head - 1) ((d.elements.length : Int) - 1)
  (store d.elements head element).bind fun elements =>
  let d1 : deque T := { elements := elements, head := head, tail := d.tail }
  if d1.head = d1.tail then grow d1 else some d1

/-- The method `AddLast`. -/
def AddLast {T : Type} [Inhabited T] (d : deque T) (element : T) : Option (deque T) :=
  (store d.elements d.tail element).bind fun elements =>
  let tail := Int.land (d.tail + 1) ((elements.length : Int) - 1)
  let d1 : deque T := { elements := elements, head := d.head, tail := tail }
  if d1.head = d1.tail then grow d1 else some d1

/-- The method `PeekFirst`: the returned pair and the deque after the call. -/
def PeekFirst {T : Type} [Inhabited T] (d : deque T) : Option ((T × Bool) × deque T) :=
  if IsEmpty d then some ((zero T, false), d)
  else (index d.elements d.head).bind fun x => some ((x, true), d)

/-- The method `PeekLast`: the returned pair and the deque after the call. -/
def PeekLast {T : Type} [Inhabited T] (d : deque T) : Option ((T × Bool) × deque T) :=
  if IsEmpty d then some ((zero T, false), d)
  else (index d.elements (d.tail - 1)).bind fun x => some ((x, true), d)

/-- The method `RemoveFirst`: the returned pair and the deque after the call. -/
def RemoveFirst {T : Type} [Inhabited T] (d : deque T) : Option ((T × Bool) × deque T) :=
  if IsEmpty d then some ((zero T, false), d)
  else
    (index d.elements d.head).bind fun first =>
    (store d.elements d.head (zero T)).bind fun elements =>
    let head := Int.land (d.head + 1) ((elements.length : Int) - 1)
    some ((first, true), { elements := elements, head := head, tail := d.tail })

/-- The method `RemoveLast`: the returned pair and the deque after the call. -/
def RemoveLast {T : Type} [Inhabited T] (d : deque T) : Option ((T × Bool) × deque T) :=
  if IsEmpty d then some ((zero T, false), d)
  else
    let i := Int.land (d.tail - 1) ((d.elements.length : Int) - 1)
    (index d.elements i).bind fun last =>
    (store d.elements i (zero T)).bind fun elements =>
    some ((last, true), { elements := elements, head := d.head, tail := i })

/-- The method `AsSlice`. -/
def AsSlice {T : Type} [Inhabited T] (d : deque T) : Option (List T) :=
  copyToSliceWithSize d (Len d)

/-! ## Specification vocabulary -/

/-- The well-formed states: the buffer length is a power of two (so at least 1),
and `head` and `tail` are indices into the buffer. -/
def WellFormed {T : Type} (d : deque T) : Prop :=
  (∃ k : Nat, d.elements.length = 2 ^ k) ∧
    0 ≤ d.head ∧ d.head < d.elements.length ∧ 0 ≤ d.tail ∧ d.tail < d.elements.length

/-- The logical elements of a deque, front to back: the buffer from `head` up to
`tail`, continuing at index 0 when `tail` lies before `head`. -/
def contents {T : Type} (d : deque T) : List T :=
  if d.head ≤ d.tail then (d.elements.take d.tail.toNat).drop d.head.toNat
  else d.elements.drop d.head.toNat ++ d.elements.take d.tail.toNat

/-- The calls `d.AddLast(e1); ...; d.AddLast(en)` for `[e1, ..., en]`. -/
def addLastAll {T : Type} [Inhabited T] (d : deque T) : List T → Option (deque T)
  | [] => some d
  | e :: es => (AddLast d e).bind fun d1 => addLastAll d1 es

/-- The calls `d.AddFirst(e1); ...; d.AddFirst(en)` for `[e1, ..., en]`. -/
def addFirstAll {T : Type} [Inhabited T] (d : deque T) : List T → Option (deque T)
  | [] => some d
  | e :: es => (AddFirst d e).bind fun d1 => addFirstAll d1 es

/-- The first `k` results of repeated `d.RemoveFirst()` calls, in call order, and
the deque after them. -/
def removeFirstN {T : Type} [Inhabited T] (d : deque T) : Nat → Option (List (T × Bool) × deque T)
  | 0 => some ([], d)
  | k + 1 =>
    (RemoveFirst d).bind fun r =>
    (removeFirstN r.2 k).bind fun rs => some (r.1 :: rs.1, rs.2)

/-- The first `k` results of repeated `d.RemoveLast()` calls, in call order, and
the deque after them. -/
def removeLastN {T : Type} [Inhabited T] (d : deque T) : Nat → Option (List (T × Bool) × deque T)
  | 0 => some ([], d)
  | k + 1 =>
    (RemoveLast d).bind fun r =>
    (removeLastN r.2 k).bind fun rs => some (r.1 :: rs.1, rs.2)

/-- An insertion call: `AddFirst(e)` or `AddLast(e)`. -/
inductive Insert (T : Type) where
  | first (e : T)
  | last (e : T)
deriving DecidableEq, Repr

/-- Run one insertion call on the deque. -/
def applyInsert {T : Type} [Inhabited T] (d : deque T) : Insert T → Option (deque T)
  | Insert.first e => AddFirst d e
  | Insert.last e => AddLast d e

/-- Run a sequence of insertion calls, in order. -/
def applyInserts {T : Type} [Inhabited T] (d : deque T) : List (Insert T) → Option (deque T)
  | [] => some d
  | c :: cs => (applyInsert d c).bind fun d1 => applyInserts d1 cs

/-- The list model of one insertion, in the words of the specification:
`AddFirst` prepends, `AddLast` appends. -/
def listInsert {T : Type} (l : List T) : Insert T → List T
  | Insert.first e => e :: l
  | Insert.last e => l ++ [e]

/-- The list model of a sequence of insertions. -/
def listInserts {T : Type} (l : List T) : List (Insert T) → List T
  | [] => l
  | c :: cs => listInserts (listInsert l c) cs

/-- A mutating call: `AddFirst(e)`, `AddLast(e)`, `RemoveFirst()` or `RemoveLast()`. -/
inductive Call (T : Type) where
  | addFirst (e : T)
  | addLast (e : T)
  | removeFirst
  | removeLast
deriving DecidableEq, Repr

/-- Run one mutating call and keep the deque it leaves behind. -/
def applyCall {T : Type} [Inhabited T] (d : deque T) : Call T → Option (deque T)
  | Call.addFirst e => AddFirst d e
  | Call.addLast e => AddLast d e
  | Call.removeFirst => (RemoveFirst d).bind fun r => some r.2
  | Call.removeLast => (RemoveLast d).bind fun r => some r.2

/-- Run a sequence of mutating calls, in order. -/
def applyCalls {T : Type} [Inhabited T] (d : deque T) : List (Call T) → Option (deque T)
  | [] => some d
  | c :: cs => (applyCall d c).bind fun d1 => applyCalls d1 cs

/-- Index `j` is a logical index: `j = (head + i) mod cap` for some `0 ≤ i < Len()`. -/
def isLogical {T : Type} (d : deque T) (j : Nat) : Prop :=
  ∃ i : Nat, (i : Int) < Len d ∧ (d.head + (i : Int)) % (d.elements.length : Int) = (j : Int)

/-- Every buffer slot whose index is not a logical index holds the zero value. -/
def ZeroOutside {T : Type} [Inhabited T] (d : deque T) : Prop :=
  ∀ j : Nat, j < d.elements.length → ¬ isLogical d j → d.elements[j]? = some (zero T)

/-- The indices `head` and `tail` lie within the buffer, its end included. -/
def InBuffer {T : Type} (d : deque T) : Prop :=
  0 ≤ d.head ∧ d.head ≤ (d.elements.length : Int) ∧
    0 ≤ d.tail ∧ d.tail ≤ (d.elements.length : Int)

/-- The deques the program can produce: what `NewWithSize(n)` returns for any
`n` (`New()` is `NewWithSize(DefaultDequeSize)`), and what any method call that
returns leaves behind when started on such a deque. -/
inductive Reachable {T : Type} [Inhabited T] : deque T → Prop where
  | fresh (n : Int) (d : deque T) : NewWithSize T n = some d → Reachable d
  | addFirst (d d1 : deque T) (e : T) : Reachable d → AddFirst d e = some d1 → Reachable d1
  | addLast (d d1 : deque T) (e : T) : Reachable d → AddLast d e = some d1 → Reachable d1
  | removeFirst (d d1 : deque T) (r : T × Bool) :
      Reachable d → RemoveFirst d = some (r, d1) → Reachable d1
  | removeLast (d d1 : deque T) (r : T × Bool) :
      Reachable d → RemoveLast d = some (r, d1) → Reachable d1
  | peekFirst (d d1 : deque T) (r : T × Bool) :
      Reachable d → PeekFirst d = some (r, d1) → Reachable d1
  | peekLast (d d1 : deque T) (r : T × Bool) :
      Reachable d → PeekLast d = some (r, d1) → Reachable d1

/-! ## Auxiliary lemmas -/

theorem ldiff_mask (a k : Nat) : Nat.ldiff (2 ^ k - 1) a = 2 ^ k - (a % 2 ^ k + 1) := by
  apply Nat.eq_of_testBit_eq
  intro i
  rw [Nat.testBit_ldiff, Nat.testBit_two_pow_sub_one,
    Nat.testBit_two_pow_sub_succ (Nat.mod_lt _ (Nat.two_pow_pos k)), Nat.testBit_mod_two_pow]
  cases decide (i < k) <;> simp

theorem land_mask (x : Int) (k : Nat) : Int.land x (2 ^ k - 1) = x % 2 ^ k := by
  have hpos : 0 < 2 ^ k := Nat.two_pow_pos k
  have hm : ((2 : Int) ^ k - 1) = ((2 ^ k - 1 : Nat) : Int) := by
    rw [Nat.cast_sub hpos]; simp
  rw [hm]
  cases x with
  | ofNat a =>
    show ((a &&& (2 ^ k - 1) : Nat) : Int) = _
    rw [Nat.and_pow_two_sub_one_eq_mod]
    simp
  | negSucc a =>
    show ((Nat.ldiff (2 ^ k - 1) a : Nat) : Int) = _
    rw [ldiff_mask, Int.negSucc_emod a (by positivity)]
    have := Nat.mod_lt a hpos
    rw [Nat.cast_sub (by omega)]
    push_cast
    ring

/-- Reduction modulo `c` of an integer within one period of `[0, c)`. -/
theorem emod_near (x c : Int) (h1 : -c ≤ x) (h2 : x < 2 * c) :
    x % c = if x < 0 then x + c else if x < c then x else x - c := by
  split_ifs with ha hb
  · rw [← Int.add_emod_self]; exact Int.emod_eq_of_lt (by omega) (by omega)
  · exact Int.emod_eq_of_lt (by omega) hb
  · have hs := @Int.add_emod_self (x - c) c
    rw [Int.sub_add_cancel] at hs
    rw [hs]; exact Int.emod_eq_of_lt (by omega) (by omega)

theorem make_natCast {T : Type} [Inhabited T] (s : Nat) :
    make T (s : Int) = some (List.replicate s (zero T)) := by
  simp [make]

theorem slice_natCast {T : Type} (xs : List T) (lo hi : Nat) (h1 : lo ≤ hi) (h2 : hi ≤ xs.length) :
    slice xs (lo : Int) (hi : Int) = some ((xs.take hi).drop lo) := by
  simp [slice, h1, h2]

theorem index_natCast {T : Type} (xs : List T) (i : Nat) (h : i < xs.length) :
    index xs (i : Int) = xs[i]? := by
  simp [index, h]

theorem store_natCast {T : Type} (xs : List T) (i : Nat) (v : T) (h : i < xs.length) :
    store xs (i : Int) v = some (xs.set i v) := by
  simp [store, h]

theorem copy_replicate {T : Type} (s : Nat) (z : T) (src : List T) :
    copy (List.replicate s z) src =
      (src.take s ++ List.replicate (s - src.length) z, ((min s src.length : Nat) : Int)) := by
  unfold copy
  simp only [List.length_replicate, Prod.mk.injEq, and_true]
  apply List.ext_getElem?
  intro i
  simp only [List.getElem?_append, List.getElem?_take, List.getElem?_drop,
    List.getElem?_replicate, List.length_take, List.length_drop, List.length_replicate]
  split_ifs <;> first | rfl | omega

/-- What `copyToSliceWithSize` computes when `head` and `tail` are inside the
buffer: the wrapped range, cut or zero-padded to `size`. -/
theorem copyToSliceWithSize_eq {T : Type} [Inhabited T] (xs : List T) (h t s : Nat)
    (hh : h ≤ xs.length) (ht : t ≤ xs.length) :
    copyToSliceWithSize ({ elements := xs, head := h, tail := t } : deque T) (s : Int) =
      some (((if h < t then (xs.take t).drop h else xs.drop h ++ xs.take t).take s) ++
        List.replicate
          (s - (if h < t then (xs.take t).drop h else xs.drop h ++ xs.take t).length) (zero T)) := by
  unfold copyToSliceWithSize
  rw [make_natCast]
  simp only [Option.some_bind, Nat.cast_lt]
  by_cases hlt : h < t
  · simp only [hlt, if_true]
    rw [slice_natCast _ _ _ (by omega) ht]
    simp only [Option.some_bind, copy_replicate]
  · simp only [hlt, if_false]
    rw [slice_natCast _ _ _ hh le_rfl]
    simp only [Option.some_bind, copy_replicate, List.take_length]
    have hz : (0 : Int) = ((0 : Nat) : Int) := rfl
    have hlen : (List.take s (List.drop h xs) ++
        List.replicate (s - (List.drop h xs).length) (zero T)).length = s := by
      simp only [List.length_append, List.length_take, List.length_drop, List.length_replicate]
      omega
    rw [slice_natCast _ _ _ (by rw [hlen]; exact Nat.min_le_left _ _) le_rfl]
    rw [hz, slice_natCast _ _ _ (Nat.zero_le _) ht]
    simp only [Option.some_bind, Option.some.injEq, Int.toNat_ofNat, List.drop_zero,
      List.take_length]
    have hdrop : List.drop (min s (List.drop h xs).length) (List.take s (List.drop h xs) ++
        List.replicate (s - (List.drop h xs).length) (zero T)) =
        List.replicate (s - (List.drop h xs).length) (zero T) := by
      apply List.drop_left'
      simp
    have htake : List.take (min s (List.drop h xs).length) (List.take s (List.drop h xs) ++
        List.replicate (s - (List.drop h xs).length) (zero T)) =
        List.take s (List.drop h xs) := by
      apply List.take_left'
      simp
    rw [hdrop, htake, copy_replicate]
    simp only [List.take_append_eq_append_take, List.append_assoc, List.length_append,
      List.length_take, List.length_drop]
    congr 2
    rw [Nat.min_eq_left ht]
    congr 1
    omega

theorem wf_cases {T : Type} {d : deque T} (hwf : WellFormed d) :
    ∃ (xs : List T) (h t k : Nat), d = { elements := xs, head := h, tail := t } ∧
      xs.length = 2 ^ k ∧ h < xs.length ∧ t < xs.length := by
  obtain ⟨xs, hd, tl⟩ := d
  obtain ⟨⟨k, hk⟩, h0, h1, t0, t1⟩ := hwf
  simp only at hk h0 h1 t0 t1
  lift hd to Nat using h0
  lift tl to Nat using t0
  exact ⟨xs, hd, tl, k, rfl, hk, by exact_mod_cast h1, by exact_mod_cast t1⟩

theorem wf_mk {T : Type} (xs : List T) (h t k : Nat) (hk : xs.length = 2 ^ k)
    (hh : h < xs.length) (ht : t < xs.length) :
    WellFormed ({ elements := xs, head := h, tail := t } : deque T) :=
  ⟨⟨k, hk⟩, by simp, by simpa using hh, by simp, by simpa using ht⟩

/-- The mask `len - 1` of a power-of-two length reduces modulo `len`. -/
theorem land_len {c k : Nat} (hk : c = 2 ^ k) (x : Int) (h1 : -(c : Int) ≤ x)
    (h2 : x < 2 * (c : Int)) :
    Int.land x ((c : Int) - 1) =
      if x < 0 then x + c else if x < c then x else x - c := by
  have hc : (c : Int) = 2 ^ k := by rw [hk]; push_cast; rfl
  rw [← emod_near x c h1 h2, hc]
  exact land_mask x k

theorem land_succ {c k : Nat} (hk : c = 2 ^ k) (t : Nat) (ht : t < c) :
    Int.land ((t : Int) + 1) ((c : Int) - 1) = ((if t + 1 = c then 0 else t + 1 : Nat) : Int) := by
  rw [land_len hk _ (by omega) (by omega)]
  split_ifs <;> omega

theorem land_pred {c k : Nat} (hk : c = 2 ^ k) (h : Nat) (hh : h < c) :
    Int.land ((h : Int) - 1) ((c : Int) - 1) = ((if h = 0 then c - 1 else h - 1 : Nat) : Int) := by
  rw [land_len hk _ (by omega) (by omega)]
  split_ifs <;> omega

theorem land_diff {c k : Nat} (hk : c = 2 ^ k) (h t : Nat) (hh : h < c) (ht : t < c) :
    Int.land ((t : Int) - (h : Int)) ((c : Int) - 1) =
      ((if h ≤ t then t - h else c - h + t : Nat) : Int) := by
  rw [land_len hk _ (by omega) (by omega)]
  split_ifs <;> omega

theorem contents_mk {T : Type} (xs : List T) (h t : Nat) :
    contents ({ elements := xs, head := h, tail := t } : deque T) =
      if h ≤ t then (xs.take t).drop h else xs.drop h ++ xs.take t := by
  simp [contents]

theorem length_contents_mk {T : Type} (xs : List T) (h t : Nat) (ht : t < xs.length) :
    (contents ({ elements := xs, head := h, tail := t } : deque T)).length =
      if h ≤ t then t - h else xs.length - h + t := by
  rw [contents_mk]
  split_ifs <;> simp <;> omega

theorem Len_mk {T : Type} (xs : List T) (h t k : Nat) (hk : xs.length = 2 ^ k)
    (hh : h < xs.length) (ht : t < xs.length) :
    Len ({ elements := xs, head := h, tail := t } : deque T) =
      ((if h ≤ t then t - h else xs.length - h + t : Nat) : Int) := by
  unfold Len
  exact land_diff hk h t hh ht

/-- On a well-formed deque `Len` is the number of logical elements. -/
theorem Len_eq_length_contents {T : Type} (d : deque T) (hwf : WellFormed d) :
    Len d = ((contents d).length : Int) := by
  obtain ⟨xs, h, t, k, rfl, hk, hh, ht⟩ := wf_cases hwf
  rw [Len_mk xs h t k hk hh ht, length_contents_mk xs h t ht]

/-- On a well-formed deque `AsSlice` returns the logical elements. -/
theorem AsSlice_eq_contents {T : Type} [Inhabited T] (d : deque T) (hwf : WellFormed d) :
    AsSlice d = some (contents d) := by
  obtain ⟨xs, h, t, k, rfl, hk, hh, ht⟩ := wf_cases hwf
  unfold AsSlice
  rw [Len_mk xs h t k hk hh ht, copyToSliceWithSize_eq xs h t _ (by omega) (by omega), contents_mk]
  congr 1
  by_cases h1 : h < t
  · have h2 : h ≤ t := by omega
    simp only [h1, h2, if_true]
    rw [List.take_of_length_le (by simp; omega),
      (by simp; omega : t - h - ((xs.take t).drop h).length = 0)]
    simp
  · by_cases h2 : h ≤ t
    · have h3 : h = t := by omega
      subst h3
      simp
    · simp only [h1, h2, if_false]
      rw [List.take_of_length_le (by simp)]
      have : xs.length - h + t - (xs.drop h ++ xs.take t).length = 0 := by simp; omega
      rw [this]; simp

/-- What `grow` computes on a full buffer (`head = tail`): the buffer rotated to
start at `head`, followed by as many zero values. -/
theorem grow_mk {T : Type} [Inhabited T] (xs : List T) (h : Nat) (hh : h < xs.length) :
    grow ({ elements := xs, head := h, tail := h } : deque T) =
      some { elements := xs.drop h ++ xs.take h ++ List.replicate xs.length (zero T),
             head := 0, tail := xs.length } := by
  unfold grow
  have h2 : (xs.length : Int) * 2 = ((xs.length * 2 : Nat) : Int) := by push_cast; rfl
  simp only [h2]
  rw [copyToSliceWithSize_eq xs h h _ (by omega) (by omega)]
  simp only [lt_irrefl, if_false, Option.some_bind, Option.some.injEq, deque.mk.injEq, and_true]
  rw [List.take_of_length_le (by simp; omega)]
  congr 2
  simp
  omega

theorem wf_grown {T : Type} [Inhabited T] (xs : List T) (h k : Nat) (hk : xs.length = 2 ^ k)
    (hh : h < xs.length) :
    WellFormed ({ elements := xs.drop h ++ xs.take h ++ List.replicate xs.length (zero T),
                  head := 0, tail := xs.length } : deque T) := by
  have hpos : 0 < xs.length := by omega
  refine ⟨⟨k + 1, ?_⟩, by simp, ?_, by simp, ?_⟩
  · simp only [List.length_append, List.length_drop, List.length_take, List.length_replicate]
    rw [pow_succ, ← hk]; omega
  · simp only [List.length_append, List.length_drop, List.length_take, List.length_replicate]
    push_cast; omega
  · simp only [List.length_append, List.length_drop, List.length_take, List.length_replicate]
    push_cast; omega

theorem contents_grown {T : Type} [Inhabited T] (xs : List T) (h : Nat) (hh : h < xs.length) :
    contents ({ elements := xs.drop h ++ xs.take h ++ List.replicate xs.length (zero T),
                head := 0, tail := xs.length } : deque T) = xs.drop h ++ xs.take h := by
  have h0 : ((0 : Nat) : Int) = 0 := rfl
  rw [← h0, contents_mk]
  simp only [Nat.zero_le, if_true, List.drop_zero]
  apply List.take_left'
  simp; omega

/-- The method `AddLast` on a well-formed deque: it succeeds, keeps the deque well-formed
and appends to the logical elements. -/
theorem AddLast_spec {T : Type} [Inhabited T] (d : deque T) (e : T) (hwf : WellFormed d) :
    ∃ d1, AddLast d e = some d1 ∧ WellFormed d1 ∧ contents d1 = contents d ++ [e] := by
  obtain ⟨xs, h, t, k, rfl, hk, hh, ht⟩ := wf_cases hwf
  unfold AddLast
  simp only [store_natCast xs t e ht, Option.some_bind, List.length_set]
  rw [land_succ hk t ht]
  by_cases hfull : h = if t + 1 = xs.length then 0 else t + 1
  · have hfull1 : ((h : Int) = ((if t + 1 = xs.length then 0 else t + 1 : Nat) : Int)) := by
      exact_mod_cast hfull
    rw [if_pos hfull1, ← hfull]
    have hlen : (xs.set t e).length = xs.length := List.length_set ..
    rw [grow_mk (xs.set t e) h (by rw [hlen]; exact hh)]
    refine ⟨_, rfl, wf_grown _ h k (by rw [hlen]; exact hk) (by rw [hlen]; exact hh), ?_⟩
    rw [contents_grown _ h (by rw [hlen]; exact hh), contents_mk]
    apply List.ext_getElem?
    intro i
    split_ifs at hfull with hc <;> split_ifs with hc2 <;>
    simp only [List.getElem?_append, List.getElem?_take, List.getElem?_drop,
      List.getElem?_set, List.length_take, List.length_drop, List.length_set,
      List.length_append, List.length_cons, List.length_nil, List.getElem?_cons,
      List.getElem?_nil] <;>
    split_ifs <;>
    (first | rfl | omega)
  · have hfull1 : ¬ ((h : Int) = ((if t + 1 = xs.length then 0 else t + 1 : Nat) : Int)) := by
      exact_mod_cast hfull
    rw [if_neg hfull1]
    have hlen : (xs.set t e).length = xs.length := List.length_set ..
    refine ⟨_, rfl, wf_mk _ h _ k (by rw [hlen]; exact hk) (by rw [hlen]; exact hh)
      (by rw [hlen]; split_ifs <;> omega), ?_⟩
    rw [contents_mk, contents_mk]
    apply List.ext_getElem?
    intro i
    split_ifs at hfull with hc <;> split_ifs with hc2 hc3 hc3 <;>
    simp only [List.getElem?_append, List.getElem?_take, List.getElem?_drop,
      List.getElem?_set, List.length_take, List.length_drop, List.length_set,
      List.length_append, List.length_cons, List.length_nil, List.getElem?_cons,
      List.getElem?_nil] <;>
    split_ifs <;>
    (first | rfl | omega)

/-- The method `AddFirst` on a well-formed deque: it succeeds, keeps the deque well-formed
and prepends to the logical elements. -/
theorem AddFirst_spec {T : Type} [Inhabited T] (d : deque T) (e : T) (hwf : WellFormed d) :
    ∃ d1, AddFirst d e = some d1 ∧ WellFormed d1 ∧ contents d1 = e :: contents d := by
  obtain ⟨xs, h, t, k, rfl, hk, hh, ht⟩ := wf_cases hwf
  unfold AddFirst
  simp only []
  rw [land_pred hk h hh]
  obtain ⟨p, hp, hpv⟩ : ∃ p, p < xs.length ∧ (if h = 0 then xs.length - 1 else h - 1) = p :=
    ⟨_, by split_ifs <;> omega, rfl⟩
  rw [hpv]
  simp only [store_natCast xs _ e hp, Option.some_bind]
  have hlen : (xs.set p e).length = xs.length := List.length_set ..
  by_cases hfull : p = t
  · have hfull1 : ((p : Int) = (t : Int)) := by exact_mod_cast hfull
    rw [if_pos hfull1, hfull]
    rw [hfull] at hlen
    rw [grow_mk (xs.set t e) t (by rw [hlen]; exact ht)]
    refine ⟨_, rfl, wf_grown _ t k (by rw [hlen]; exact hk) (by rw [hlen]; exact ht), ?_⟩
    rw [contents_grown _ t (by rw [hlen]; exact ht), contents_mk]
    apply List.ext_getElem?
    intro i
    split_ifs at hpv with hc <;> split_ifs with hc2 <;>
    simp only [List.getElem?_append, List.getElem?_take, List.getElem?_drop,
      List.getElem?_set, List.length_take, List.length_drop, List.length_set,
      List.length_append, List.length_cons, List.length_nil, List.getElem?_cons,
      List.getElem?_nil] <;>
    split_ifs <;>
    (first | rfl | omega | (congr 1; omega))
  · have hfull1 : ¬ ((p : Int) = (t : Int)) := by exact_mod_cast hfull
    rw [if_neg hfull1]
    refine ⟨_, rfl, wf_mk _ _ t k (by rw [hlen]; exact hk) (by rw [hlen]; exact hp)
      (by rw [hlen]; exact ht), ?_⟩
    rw [contents_mk, contents_mk]
    apply List.ext_getElem?
    intro i
    split_ifs at hpv with hc <;> split_ifs with hc2 hc3 hc3 <;>
    simp only [List.getElem?_append, List.getElem?_take, List.getElem?_drop,
      List.getElem?_set, List.length_take, List.length_drop, List.length_set,
      List.length_append, List.length_cons, List.length_nil, List.getElem?_cons,
      List.getElem?_nil] <;>
    split_ifs <;>
    (first | rfl | omega | (congr 1; omega))

/-- The method `RemoveFirst` on a well-formed, non-empty deque: it succeeds with the front
element, keeps the deque well-formed and drops that element. -/
theorem RemoveFirst_spec {T : Type} [Inhabited T] (d : deque T) (hwf : WellFormed d)
    (hne : d.head ≠ d.tail) :
    ∃ x d1, RemoveFirst d = some ((x, true), d1) ∧ WellFormed d1 ∧
      contents d = x :: contents d1 := by
  obtain ⟨xs, h, t, k, rfl, hk, hh, ht⟩ := wf_cases hwf
  have hne1 : h ≠ t := by intro hc; exact hne (by simp [hc])
  unfold RemoveFirst
  have hemp : IsEmpty ({ elements := xs, head := h, tail := t } : deque T) = false := by
    simp [IsEmpty, hne1]
  simp only [hemp, Bool.false_eq_true, if_false]
  rw [index_natCast xs h hh, List.getElem?_eq_getElem hh]
  simp only [store_natCast xs h _ hh, Option.some_bind, List.length_set]
  rw [land_succ hk h hh]
  have hlen : (xs.set h (zero T)).length = xs.length := List.length_set ..
  refine ⟨xs[h], _, rfl, wf_mk _ _ t k (by rw [hlen]; exact hk)
    (by rw [hlen]; split_ifs <;> omega) (by rw [hlen]; exact ht), ?_⟩
  rw [contents_mk, contents_mk]
  apply List.ext_getElem?
  intro i
  have hx : xs[h]? = some xs[h] := List.getElem?_eq_getElem hh
  by_cases hc : h + 1 = xs.length <;> simp only [hc, if_true, if_false] <;>
  split_ifs with hc2 hc3 hc3 <;>
  simp only [List.getElem?_append, List.getElem?_take, List.getElem?_drop,
    List.getElem?_set, List.length_take, List.length_drop, List.length_set,
    List.length_append, List.length_cons, List.length_nil, List.getElem?_cons,
    List.getElem?_nil] <;>
  split_ifs <;>
  (first | rfl | omega | (rw [← hx]; congr 1; omega) | (congr 1; omega))

/-- The method `RemoveLast` on a well-formed, non-empty deque: it succeeds with the back
element, keeps the deque well-formed and drops that element. -/
theorem RemoveLast_spec {T : Type} [Inhabited T] (d : deque T) (hwf : WellFormed d)
    (hne : d.head ≠ d.tail) :
    ∃ x d1, RemoveLast d = some ((x, true), d1) ∧ WellFormed d1 ∧
      contents d = contents d1 ++ [x] := by
  obtain ⟨xs, h, t, k, rfl, hk, hh, ht⟩ := wf_cases hwf
  have hne1 : h ≠ t := by intro hc; exact hne (by simp [hc])
  unfold RemoveLast
  have hemp : IsEmpty ({ elements := xs, head := h, tail := t } : deque T) = false := by
    simp [IsEmpty, hne1]
  simp only [hemp, Bool.false_eq_true, if_false]
  rw [land_pred hk t ht]
  obtain ⟨p, hp, hpv⟩ : ∃ p, p < xs.length ∧ (if t = 0 then xs.length - 1 else t - 1) = p :=
    ⟨_, by split_ifs <;> omega, rfl⟩
  rw [hpv, index_natCast xs p hp, List.getElem?_eq_getElem hp]
  simp only [store_natCast xs p _ hp, Option.some_bind]
  have hlen : (xs.set p (zero T)).length = xs.length := List.length_set ..
  refine ⟨xs[p], _, rfl, wf_mk _ h _ k (by rw [hlen]; exact hk)
    (by rw [hlen]; exact hh) (by rw [hlen]; exact hp), ?_⟩
  rw [contents_mk, contents_mk]
  apply List.ext_getElem?
  intro i
  have hx : xs[p]? = some xs[p] := List.getElem?_eq_getElem hp
  split_ifs at hpv with hc <;> split_ifs with hc2 hc3 hc3 <;>
  simp only [List.getElem?_append, List.getElem?_take, List.getElem?_drop,
    List.getElem?_set, List.length_take, List.length_drop, List.length_set,
    List.length_append, List.length_cons, List.length_nil, List.getElem?_cons,
    List.getElem?_nil] <;>
  split_ifs <;>
  (first | rfl | omega | (rw [← hx]; congr 1; omega))

theorem lor_natCast (a b : Nat) : Int.lor (a : Int) (b : Int) = ((a ||| b : Nat) : Int) := rfl

theorem shiftRight_natCast (a w : Nat) : Int.shiftRight (a : Int) w = ((a >>> w : Nat) : Int) := rfl

/-- One OR-shift step doubles the run of set bits below the top bit. -/
theorem orShift_step (m s w : Nat) (hlt : m < 2 ^ s)
    (hbits : ∀ i, i < s → s ≤ i + w → m.testBit i = true) :
    (m ||| m >>> w) < 2 ^ s ∧
      ∀ i, i < s → s ≤ i + 2 * w → (m ||| m >>> w).testBit i = true := by
  constructor
  · exact Nat.or_lt_two_pow hlt (lt_of_le_of_lt (by rw [Nat.shiftRight_eq_div_pow]; exact Nat.div_le_self _ _) hlt)
  · intro i hi hiw
    rw [Nat.testBit_or, Nat.testBit_shiftRight]
    by_cases h1 : s ≤ i + w
    · rw [hbits i hi h1]; rfl
    · rw [hbits (w + i) (by omega) (by omega)]; simp

/-- The bit length of a natural number: the least `s` with `n < 2 ^ s`. -/
theorem exists_bitLength (n : Nat) :
    ∃ s, n < 2 ^ s ∧ (∀ i, i < s → s ≤ i + 1 → n.testBit i = true) ∧
      (s = 0 ∨ 2 ^ (s - 1) ≤ n) := by
  by_cases hn : n = 0
  · exact ⟨0, by simp [hn], by intro i hi; omega, Or.inl rfl⟩
  · obtain ⟨i, hi, hmax⟩ := Nat.exists_most_significant_bit hn
    refine ⟨i + 1, ?_, ?_, Or.inr ?_⟩
    · apply Nat.lt_pow_two_of_testBit
      intro j hj
      exact hmax j (by omega)
    · intro j hj hj2
      have : j = i := by omega
      rw [this]; exact hi
    · simpa using Nat.testBit_implies_ge hi

/-- For `0 ≤ n < 2 ^ 32` the OR-shift cascade of `nextPowerOf2` fills every bit
below the top bit of `n`, so the result is `2 ^ s` for the bit length `s` of `n`. -/
theorem nextPowerOf2_natCast (n : Nat) (hn : n < 2 ^ 32) :
    ∃ s, s ≤ 32 ∧ nextPowerOf2 (n : Int) = ((2 ^ s : Nat) : Int) ∧ n < 2 ^ s ∧
      (s = 0 ∨ 2 ^ (s - 1) ≤ n) := by
  obtain ⟨s, hlt, hb, hlow⟩ := exists_bitLength n
  have hs : s ≤ 32 := by
    rcases hlow with h0 | h1
    · omega
    · by_contra hc
      have : 2 ^ 32 ≤ 2 ^ (s - 1) := Nat.pow_le_pow_right (by norm_num) (by omega)
      omega
  obtain ⟨h1a, h1b⟩ := orShift_step n s 1 hlt hb
  obtain ⟨h2a, h2b⟩ := orShift_step _ s 2 h1a h1b
  obtain ⟨h3a, h3b⟩ := orShift_step _ s 4 h2a h2b
  obtain ⟨h4a, h4b⟩ := orShift_step _ s 8 h3a h3b
  obtain ⟨h5a, h5b⟩ := orShift_step _ s 16 h4a h4b
  refine ⟨s, hs, ?_, hlt, hlow⟩
  unfold nextPowerOf2
  simp only [shiftRight_natCast, lor_natCast]
  generalize hm : ((((n ||| n >>> 1) ||| (n ||| n >>> 1) >>> 2) |||
      ((n ||| n >>> 1) ||| (n ||| n >>> 1) >>> 2) >>> 4) |||
      (((n ||| n >>> 1) ||| (n ||| n >>> 1) >>> 2) |||
      ((n ||| n >>> 1) ||| (n ||| n >>> 1) >>> 2) >>> 4) >>> 8) = m8 at h4a h4b h5a h5b ⊢
  generalize hm2 : (m8 ||| m8 >>> 16) = m at h5a h5b ⊢
  have hall : m = 2 ^ s - 1 := by
    apply Nat.eq_of_testBit_eq
    intro i
    rw [Nat.testBit_two_pow_sub_one]
    by_cases hi : i < s
    · rw [h5b i hi (by omega)]; simp [hi]
    · rw [Nat.testBit_lt_two_pow (lt_of_lt_of_le h5a (Nat.pow_le_pow_right (by norm_num)
        (by omega)))]
      simp [hi]
  have hpos : 0 < 2 ^ s := Nat.two_pow_pos s
  have hle : 2 ^ s ≤ 2 ^ 32 := Nat.pow_le_pow_right (by norm_num) hs
  have hval : ((m : Int) + 1) = ((2 ^ s : Nat) : Int) := by
    rw [hall]; omega
  rw [hval]
  unfold wrap64
  omega

theorem contents_of_head_eq_tail {T : Type} (d : deque T) (h : d.head = d.tail) :
    contents d = [] := by
  unfold contents
  rw [h]
  simp

theorem contents_fresh {T : Type} (xs : List T) :
    contents ({ elements := xs, head := 0, tail := 0 } : deque T) = [] :=
  contents_of_head_eq_tail _ rfl

theorem head_ne_tail_of_contents {T : Type} (d : deque T) (x : T) (l : List T)
    (h : contents d = x :: l) : d.head ≠ d.tail := by
  intro hc
  rw [contents_of_head_eq_tail d hc] at h
  exact List.noConfusion h

theorem head_ne_tail_of_contents_append {T : Type} (d : deque T) (x : T) (l : List T)
    (h : contents d = l ++ [x]) : d.head ≠ d.tail := by
  intro hc
  rw [contents_of_head_eq_tail d hc] at h
  cases l <;> exact List.noConfusion h

/-- The constructor `NewWithSize(n)` for `0 ≤ n < 2 ^ 32`: it succeeds with a well-formed, empty
deque whose cells are all zero. -/
theorem NewWithSize_spec (T : Type) [Inhabited T] (n : Int) (h0 : 0 ≤ n) (h1 : n < 2 ^ 32) :
    ∃ s : Nat, s ≤ 32 ∧
      NewWithSize T n =
        some { elements := List.replicate (2 ^ s) (zero T), head := 0, tail := 0 } ∧
      WellFormed ({ elements := List.replicate (2 ^ s) (zero T), head := 0, tail := 0 } : deque T) ∧
      n < 2 ^ s ∧ (s = 0 ∨ 2 ^ (s - 1) ≤ n) := by
  lift n to Nat using h0
  obtain ⟨s, hs, hv, hlt, hlow⟩ := nextPowerOf2_natCast n (by exact_mod_cast h1)
  have hpos : 0 < 2 ^ s := Nat.two_pow_pos s
  refine ⟨s, hs, ?_, ?_, by exact_mod_cast hlt, ?_⟩
  · unfold NewWithSize
    simp only [hv, make_natCast, Option.some_bind]
  · have h0 : ((0 : Nat) : Int) = 0 := rfl
    rw [← h0]
    exact wf_mk _ 0 0 s (by simp) (by simp) (by simp)
  · rcases hlow with h | h
    · exact Or.inl h
    · exact Or.inr (by exact_mod_cast h)

theorem addLastAll_spec {T : Type} [Inhabited T] (es : List T) :
    ∀ d : deque T, WellFormed d →
      ∃ d1, addLastAll d es = some d1 ∧ WellFormed d1 ∧ contents d1 = contents d ++ es := by
  induction es with
  | nil => intro d hwf; exact ⟨d, rfl, hwf, by simp⟩
  | cons e es ih =>
    intro d hwf
    obtain ⟨d1, h1, hwf1, hc1⟩ := AddLast_spec d e hwf
    obtain ⟨d2, h2, hwf2, hc2⟩ := ih d1 hwf1
    refine ⟨d2, ?_, hwf2, ?_⟩
    · simp only [addLastAll, h1, Option.some_bind, h2]
    · rw [hc2, hc1]; simp

theorem addFirstAll_spec {T : Type} [Inhabited T] (es : List T) :
    ∀ d : deque T, WellFormed d →
      ∃ d1, addFirstAll d es = some d1 ∧ WellFormed d1 ∧
        contents d1 = es.reverse ++ contents d := by
  induction es with
  | nil => intro d hwf; exact ⟨d, rfl, hwf, by simp⟩
  | cons e es ih =>
    intro d hwf
    obtain ⟨d1, h1, hwf1, hc1⟩ := AddFirst_spec d e hwf
    obtain ⟨d2, h2, hwf2, hc2⟩ := ih d1 hwf1
    refine ⟨d2, ?_, hwf2, ?_⟩
    · simp only [addFirstAll, h1, Option.some_bind, h2]
    · rw [hc2, hc1]; simp

theorem applyInserts_spec {T : Type} [Inhabited T] (cs : List (Insert T)) :
    ∀ d : deque T, WellFormed d →
      ∃ d1, applyInserts d cs = some d1 ∧ WellFormed d1 ∧
        contents d1 = listInserts (contents d) cs := by
  induction cs with
  | nil => intro d hwf; exact ⟨d, rfl, hwf, rfl⟩
  | cons c cs ih =>
    intro d hwf
    have hstep : ∃ d1, applyInsert d c = some d1 ∧ WellFormed d1 ∧
        contents d1 = listInsert (contents d) c := by
      cases c with
      | first e => exact AddFirst_spec d e hwf
      | last e => exact AddLast_spec d e hwf
    obtain ⟨d1, h1, hwf1, hc1⟩ := hstep
    obtain ⟨d2, h2, hwf2, hc2⟩ := ih d1 hwf1
    refine ⟨d2, ?_, hwf2, ?_⟩
    · simp only [applyInserts, h1, Option.some_bind, h2]
    · rw [hc2, hc1]; rfl

theorem length_listInserts {T : Type} (cs : List (Insert T)) :
    ∀ l : List T, (listInserts l cs).length = l.length + cs.length := by
  induction cs with
  | nil => intro l; rfl
  | cons c cs ih =>
    intro l
    rw [listInserts, ih]
    cases c <;> simp [listInsert] <;> omega

theorem removeFirstN_spec {T : Type} [Inhabited T] (k : Nat) :
    ∀ (d : deque T), WellFormed d → k ≤ (contents d).length →
      ∃ d1, removeFirstN d k = some (((contents d).take k).map (fun e => (e, true)), d1) ∧
        WellFormed d1 ∧ contents d1 = (contents d).drop k := by
  induction k with
  | zero => intro d hwf _; exact ⟨d, by simp [removeFirstN], hwf, by simp⟩
  | succ k ih =>
    intro d hwf hk
    have hne : d.head ≠ d.tail := by
      intro hc
      rw [contents_of_head_eq_tail d hc] at hk
      simp at hk
    obtain ⟨x, d1, h1, hwf1, hc1⟩ := RemoveFirst_spec d hwf hne
    obtain ⟨d2, h2, hwf2, hc2⟩ := ih d1 hwf1 (by rw [hc1] at hk; simpa using hk)
    refine ⟨d2, ?_, hwf2, ?_⟩
    · simp only [removeFirstN, h1, Option.some_bind, h2, hc1, List.take_succ_cons, List.map_cons]
    · rw [hc2, hc1]; simp

theorem removeLastN_spec {T : Type} [Inhabited T] (k : Nat) :
    ∀ (d : deque T), WellFormed d → k ≤ (contents d).length →
      ∃ d1, removeLastN d k =
          some (((contents d).reverse.take k).map (fun e => (e, true)), d1) ∧
        WellFormed d1 ∧ contents d1 = (contents d).take ((contents d).length - k) := by
  induction k with
  | zero => intro d hwf _; exact ⟨d, by simp [removeLastN], hwf, by simp⟩
  | succ k ih =>
    intro d hwf hk
    have hne : d.head ≠ d.tail := by
      intro hc
      rw [contents_of_head_eq_tail d hc] at hk
      simp at hk
    obtain ⟨x, d1, h1, hwf1, hc1⟩ := RemoveLast_spec d hwf hne
    obtain ⟨d2, h2, hwf2, hc2⟩ := ih d1 hwf1 (by rw [hc1] at hk; simp at hk; omega)
    refine ⟨d2, ?_, hwf2, ?_⟩
    · simp only [removeLastN, h1, Option.some_bind, h2, hc1, List.reverse_append,
        List.reverse_cons, List.reverse_nil, List.nil_append, List.singleton_append,
        List.take_succ_cons, List.map_cons]
    · rw [hc2, hc1]
      simp only [List.length_append, List.length_singleton]
      rw [List.take_append_of_le_length (by omega)]
      congr 1
      omega

theorem head_eq_tail_of_contents_nil {T : Type} (d : deque T) (hwf : WellFormed d)
    (h : contents d = []) : d.head = d.tail := by
  obtain ⟨xs, hd, tl, k, rfl, hk, hh, ht⟩ := wf_cases hwf
  have hl := length_contents_mk xs hd tl ht
  rw [h] at hl
  simp only [List.length_nil] at hl
  split_ifs at hl with hc
  · have : hd = tl := by omega
    simp [this]
  · omega

/-- One call more than there are elements: `RemoveFirst` returns every element in
order and then `(zero, false)`. -/
theorem removeFirstN_past_end {T : Type} [Inhabited T] (k : Nat) :
    ∀ (d : deque T), WellFormed d → (contents d).length = k →
      ∃ d1, removeFirstN d (k + 1) =
        some ((contents d).map (fun e => (e, true)) ++ [(zero T, false)], d1) := by
  induction k with
  | zero =>
    intro d hwf hk
    have hnil : contents d = [] := List.length_eq_zero.mp hk
    have hemp : IsEmpty d = true := by
      simp [IsEmpty, head_eq_tail_of_contents_nil d hwf hnil]
    exact ⟨d, by simp [removeFirstN, RemoveFirst, hemp, hnil]⟩
  | succ k ih =>
    intro d hwf hk
    have hne : d.head ≠ d.tail := by
      intro hc
      rw [contents_of_head_eq_tail d hc] at hk
      simp at hk
    obtain ⟨x, d1, h1, hwf1, hc1⟩ := RemoveFirst_spec d hwf hne
    obtain ⟨d2, h2⟩ := ih d1 hwf1 (by rw [hc1] at hk; simpa using hk)
    refine ⟨d2, ?_⟩
    rw [removeFirstN, h1]
    simp only [Option.some_bind, h2, hc1, List.map_cons, List.cons_append]

theorem zero_land (y : Int) : Int.land 0 y = 0 := by
  cases y with
  | ofNat n =>
    show ((0 &&& n : Nat) : Int) = 0
    simp
  | negSucc n =>
    show ((Nat.ldiff 0 n : Nat) : Int) = 0
    have : Nat.ldiff 0 n = 0 := by
      apply Nat.eq_of_testBit_eq
      intro i
      rw [Nat.testBit_ldiff]
      simp
    rw [this]; rfl

/-- With `head = tail` inside the buffer, `AsSlice` returns the empty slice;
the buffer length need not be a power of two. -/
theorem AsSlice_of_head_eq_tail {T : Type} [Inhabited T] (d : deque T) (h : d.head = d.tail)
    (h0 : 0 ≤ d.head) (h1 : d.head ≤ d.elements.length) : AsSlice d = some [] := by
  obtain ⟨xs, hd, tl⟩ := d
  simp only at h h0 h1
  subst h
  lift hd to Nat using h0
  unfold AsSlice Len
  simp only [sub_self, zero_land]
  have hz : (0 : Int) = ((0 : Nat) : Int) := rfl
  rw [hz, copyToSliceWithSize_eq xs hd hd 0 (by exact_mod_cast h1) (by exact_mod_cast h1)]
  simp

/-- The deque right after `New[int]()` and `AddFirst(1)`. -/
theorem New_AddFirst_eval :
    (New Int).bind (fun d0 => AddFirst d0 1) =
      some { elements := List.replicate 31 0 ++ [1], head := 31, tail := 0 } := by
  have hnew : New Int = some { elements := List.replicate 32 0, head := 0, tail := 0 } := by
    decide
  rw [hnew, Option.some_bind]
  have hl := @land_pred 32 5 (by norm_num) 0 (by norm_num)
  unfold AddFirst
  simp only [List.length_replicate]
  have h0 : (0 : Int) = ((0 : Nat) : Int) := rfl
  rw [h0, hl]
  decide

/-- The deque `AddLast` leaves behind, written out: the grown buffer when the
insertion fills the buffer, the buffer with slot `tail` overwritten otherwise. -/
theorem AddLast_mk {T : Type} [Inhabited T] (xs : List T) (h t k : Nat) (e : T)
    (hk : xs.length = 2 ^ k) (hh : h < xs.length) (ht : t < xs.length) :
    AddLast ({ elements := xs, head := h, tail := t } : deque T) e =
      some (if h = (if t + 1 = xs.length then 0 else t + 1) then
          { elements := (xs.set t e).drop h ++ (xs.set t e).take h ++
              List.replicate xs.length (zero T),
            head := 0, tail := xs.length }
        else
          { elements := xs.set t e, head := h,
            tail := ((if t + 1 = xs.length then 0 else t + 1 : Nat) : Int) }) := by
  unfold AddLast
  simp only [store_natCast xs t e ht, Option.some_bind, List.length_set]
  rw [land_succ hk t ht]
  have hlen : (xs.set t e).length = xs.length := List.length_set ..
  by_cases hfull : h = if t + 1 = xs.length then 0 else t + 1
  · have hfull1 : ((h : Int) = ((if t + 1 = xs.length then 0 else t + 1 : Nat) : Int)) := by
      exact_mod_cast hfull
    rw [if_pos hfull1, if_pos hfull, ← hfull, grow_mk (xs.set t e) h (by rw [hlen]; exact hh),
      hlen]
  · have hfull1 : ¬ ((h : Int) = ((if t + 1 = xs.length then 0 else t + 1 : Nat) : Int)) := by
      exact_mod_cast hfull
    rw [if_neg hfull1, if_neg hfull]

/-- The deque `AddFirst` leaves behind, written out. -/
theorem AddFirst_mk {T : Type} [Inhabited T] (xs : List T) (h t k : Nat) (e : T)
    (hk : xs.length = 2 ^ k) (hh : h < xs.length) (ht : t < xs.length) :
    AddFirst ({ elements := xs, head := h, tail := t } : deque T) e =
      some (if (if h = 0 then xs.length - 1 else h - 1) = t then
          { elements := (xs.set t e).drop t ++ (xs.set t e).take t ++
              List.replicate xs.length (zero T),
            head := 0, tail := xs.length }
        else
          { elements := xs.set (if h = 0 then xs.length - 1 else h - 1) e,
            head := ((if h = 0 then xs.length - 1 else h - 1 : Nat) : Int), tail := t }) := by
  unfold AddFirst
  simp only []
  rw [land_pred hk h hh]
  obtain ⟨p, hp, hpv⟩ : ∃ p, p < xs.length ∧ (if h = 0 then xs.length - 1 else h - 1) = p :=
    ⟨_, by split_ifs <;> omega, rfl⟩
  rw [hpv]
  simp only [store_natCast xs _ e hp, Option.some_bind]
  have hlen : (xs.set p e).length = xs.length := List.length_set ..
  by_cases hfull : p = t
  · have hfull1 : ((p : Int) = (t : Int)) := by exact_mod_cast hfull
    rw [if_pos hfull1, if_pos hfull, hfull]
    rw [hfull] at hlen
    rw [grow_mk (xs.set t e) t (by rw [hlen]; exact ht), hlen]
  · have hfull1 : ¬ ((p : Int) = (t : Int)) := by exact_mod_cast hfull
    rw [if_neg hfull1, if_neg hfull]

/-- The result of `RemoveFirst` on a non-empty deque, written out. -/
theorem RemoveFirst_mk {T : Type} [Inhabited T] (xs : List T) (h t k : Nat)
    (hk : xs.length = 2 ^ k) (hh : h < xs.length) (hne : h ≠ t) :
    RemoveFirst ({ elements := xs, head := h, tail := t } : deque T) =
      some ((xs[h], true),
        { elements := xs.set h (zero T),
          head := ((if h + 1 = xs.length then 0 else h + 1 : Nat) : Int), tail := t }) := by
  unfold RemoveFirst
  have hemp : IsEmpty ({ elements := xs, head := h, tail := t } : deque T) = false := by
    simp [IsEmpty, hne]
  simp only [hemp, Bool.false_eq_true, if_false]
  rw [index_natCast xs h hh, List.getElem?_eq_getElem hh]
  simp only [store_natCast xs h _ hh, Option.some_bind, List.length_set]
  rw [land_succ hk h hh]

/-- The result of `RemoveLast` on a non-empty deque, written out. -/
theorem RemoveLast_mk {T : Type} [Inhabited T] (xs : List T) (h t k p : Nat)
    (hk : xs.length = 2 ^ k) (ht : t < xs.length) (hne : h ≠ t)
    (hp : (if t = 0 then xs.length - 1 else t - 1) = p) (hpl : p < xs.length) :
    RemoveLast ({ elements := xs, head := h, tail := t } : deque T) =
      some ((xs[p], true), { elements := xs.set p (zero T), head := h, tail := (p : Int) }) := by
  unfold RemoveLast
  have hemp : IsEmpty ({ elements := xs, head := h, tail := t } : deque T) = false := by
    simp [IsEmpty, hne]
  simp only [hemp, Bool.false_eq_true, if_false]
  rw [land_pred hk t ht, hp, index_natCast xs p hpl, List.getElem?_eq_getElem hpl]
  simp only [store_natCast xs p _ hpl, Option.some_bind]

/-- The logical indices of a well-formed deque are the indices from `head` up to
`tail`, wrapping at the end of the buffer. -/
theorem isLogical_mk {T : Type} (xs : List T) (h t k j : Nat) (hk : xs.length = 2 ^ k)
    (hh : h < xs.length) (ht : t < xs.length) (hj : j < xs.length) :
    isLogical ({ elements := xs, head := h, tail := t } : deque T) j ↔
      (if h ≤ t then h ≤ j ∧ j < t else h ≤ j ∨ j < t) := by
  unfold isLogical
  rw [Len_mk xs h t k hk hh ht]
  simp only []
  constructor
  · rintro ⟨i, hi, hij⟩
    have hib : i < xs.length := by
      have : ((if h ≤ t then t - h else xs.length - h + t : Nat) : Int) ≤ xs.length := by
        split_ifs <;> omega
      omega
    rw [emod_near _ _ (by omega) (by omega)] at hij
    split_ifs at hi hij ⊢ <;> omega
  · intro hr
    refine ⟨if h ≤ j then j - h else j + xs.length - h, ?_, ?_⟩
    · split_ifs at hr ⊢ <;> omega
    · rw [emod_near _ _ (by split_ifs <;> omega) (by split_ifs <;> omega)]
      split_ifs at hr ⊢ <;> omega

/-- The zero-outside property of a well-formed deque in terms of the range from
`head` up to `tail`. -/
theorem ZeroOutside_mk {T : Type} [Inhabited T] (xs : List T) (h t k : Nat)
    (hk : xs.length = 2 ^ k) (hh : h < xs.length) (ht : t < xs.length) :
    ZeroOutside ({ elements := xs, head := h, tail := t } : deque T) ↔
      ∀ j : Nat, j < xs.length → ¬ (if h ≤ t then h ≤ j ∧ j < t else h ≤ j ∨ j < t) →
        xs[j]? = some (zero T) := by
  unfold ZeroOutside
  constructor
  · intro H j hj hn
    exact H j hj (fun hl => hn ((isLogical_mk xs h t k j hk hh ht hj).mp hl))
  · intro H j hj hn
    exact H j hj (fun hr => hn ((isLogical_mk xs h t k j hk hh ht hj).mpr hr))

/-- After `grow` every slot beyond the old capacity is zero. -/
theorem ZeroOutside_grown {T : Type} [Inhabited T] (xs : List T) (h k : Nat)
    (hk : xs.length = 2 ^ k) (hh : h < xs.length) :
    ZeroOutside ({ elements := xs.drop h ++ xs.take h ++ List.replicate xs.length (zero T),
                   head := 0, tail := xs.length } : deque T) := by
  have h0 : ((0 : Nat) : Int) = 0 := rfl
  have hlen : (xs.drop h ++ xs.take h ++ List.replicate xs.length (zero T)).length =
      2 ^ (k + 1) := by
    simp only [List.length_append, List.length_drop, List.length_take, List.length_replicate]
    rw [pow_succ, ← hk]; omega
  have hlen2 : (xs.drop h ++ xs.take h ++ List.replicate xs.length (zero T)).length =
      2 * xs.length := by
    rw [hlen, pow_succ, ← hk]; omega
  rw [← h0, ZeroOutside_mk _ 0 xs.length (k + 1) hlen (by omega) (by omega)]
  intro j hj hn
  simp only [Nat.zero_le, if_true, true_and] at hn
  simp only [List.getElem?_append, List.getElem?_replicate, List.length_append,
    List.length_drop, List.length_take]
  rw [hlen2] at hj
  split_ifs <;> first | rfl | omega

theorem AddLast_zero {T : Type} [Inhabited T] (d : deque T) (e : T) (hwf : WellFormed d)
    (hz : ZeroOutside d) : ∃ d1, AddLast d e = some d1 ∧ ZeroOutside d1 := by
  obtain ⟨xs, h, t, k, rfl, hk, hh, ht⟩ := wf_cases hwf
  rw [AddLast_mk xs h t k e hk hh ht]
  have hlen : (xs.set t e).length = xs.length := List.length_set ..
  rw [ZeroOutside_mk xs h t k hk hh ht] at hz
  refine ⟨_, rfl, ?_⟩
  by_cases hfull : h = if t + 1 = xs.length then 0 else t + 1
  · rw [if_pos hfull]
    have := ZeroOutside_grown (xs.set t e) h k (by rw [hlen]; exact hk) (by rw [hlen]; exact hh)
    rw [hlen] at this
    exact this
  · rw [if_neg hfull]
    rw [ZeroOutside_mk _ h _ k (by rw [hlen]; exact hk) (by rw [hlen]; exact hh)
      (by rw [hlen]; split_ifs <;> omega)]
    intro j hj hn
    rw [hlen] at hj
    have hjt : t ≠ j := by
      intro hc; apply hn; subst hc
      split_ifs at hfull ⊢ <;> omega
    rw [List.getElem?_set, if_neg hjt]
    apply hz j hj
    intro hr; apply hn
    split_ifs at hfull hr ⊢ <;> omega

theorem AddFirst_zero {T : Type} [Inhabited T] (d : deque T) (e : T) (hwf : WellFormed d)
    (hz : ZeroOutside d) : ∃ d1, AddFirst d e = some d1 ∧ ZeroOutside d1 := by
  obtain ⟨xs, h, t, k, rfl, hk, hh, ht⟩ := wf_cases hwf
  rw [AddFirst_mk xs h t k e hk hh ht]
  rw [ZeroOutside_mk xs h t k hk hh ht] at hz
  refine ⟨_, rfl, ?_⟩
  obtain ⟨p, hp, hpv⟩ : ∃ p, p < xs.length ∧ (if h = 0 then xs.length - 1 else h - 1) = p :=
    ⟨_, by split_ifs <;> omega, rfl⟩
  rw [hpv]
  by_cases hfull : p = t
  · rw [if_pos hfull]
    have hlen : (xs.set t e).length = xs.length := List.length_set ..
    have := ZeroOutside_grown (xs.set t e) t k (by rw [hlen]; exact hk) (by rw [hlen]; exact ht)
    rw [hlen] at this
    exact this
  · rw [if_neg hfull]
    have hlen : (xs.set p e).length = xs.length := List.length_set ..
    rw [ZeroOutside_mk _ p t k (by rw [hlen]; exact hk) (by rw [hlen]; exact hp)
      (by rw [hlen]; exact ht)]
    intro j hj hn
    rw [hlen] at hj
    have hjp : p ≠ j := by
      intro hc; apply hn; subst hc
      split_ifs at hpv ⊢ <;> omega
    rw [List.getElem?_set, if_neg hjp]
    apply hz j hj
    intro hr; apply hn
    split_ifs at hpv hr ⊢ <;> omega

/-- A successful `RemoveFirst` zeroes the slot it read and keeps the other
non-logical slots zero. -/
theorem RemoveFirst_zero {T : Type} [Inhabited T] (d : deque T) (hwf : WellFormed d)
    (hne : d.head ≠ d.tail) :
    ∃ x d1, RemoveFirst d = some ((x, true), d1) ∧
      d1.elements[d.head.toNat]? = some (zero T) ∧ (ZeroOutside d → ZeroOutside d1) := by
  obtain ⟨xs, h, t, k, rfl, hk, hh, ht⟩ := wf_cases hwf
  have hne1 : h ≠ t := by intro hc; exact hne (by simp [hc])
  rw [RemoveFirst_mk xs h t k hk hh hne1]
  have hlen : (xs.set h (zero T)).length = xs.length := List.length_set ..
  refine ⟨_, _, rfl, by simp [List.getElem?_set, hh], ?_⟩
  intro hz
  rw [ZeroOutside_mk xs h t k hk hh ht] at hz
  rw [ZeroOutside_mk _ _ t k (by rw [hlen]; exact hk) (by rw [hlen]; split_ifs <;> omega)
    (by rw [hlen]; exact ht)]
  intro j hj hn
  rw [hlen] at hj
  rw [List.getElem?_set]
  by_cases hjh : h = j
  · rw [if_pos hjh, if_pos hh]
  · rw [if_neg hjh]
    apply hz j hj
    intro hr; apply hn
    split_ifs at hr ⊢ <;> omega

/-- A successful `RemoveLast` zeroes the slot it read and keeps the other
non-logical slots zero. -/
theorem RemoveLast_zero {T : Type} [Inhabited T] (d : deque T) (hwf : WellFormed d)
    (hne : d.head ≠ d.tail) :
    ∃ x d1, RemoveLast d = some ((x, true), d1) ∧
      d1.elements[d1.tail.toNat]? = some (zero T) ∧
      (d1.tail = (d.tail - 1) % (d.elements.length : Int)) ∧
      (ZeroOutside d → ZeroOutside d1) := by
  obtain ⟨xs, h, t, k, rfl, hk, hh, ht⟩ := wf_cases hwf
  have hne1 : h ≠ t := by intro hc; exact hne (by simp [hc])
  obtain ⟨p, hp, hpv⟩ : ∃ p, p < xs.length ∧ (if t = 0 then xs.length - 1 else t - 1) = p :=
    ⟨_, by split_ifs <;> omega, rfl⟩
  rw [RemoveLast_mk xs h t k p hk ht hne1 hpv hp]
  have hlen : (xs.set p (zero T)).length = xs.length := List.length_set ..
  refine ⟨_, _, rfl, by simp [List.getElem?_set, hp], ?_, ?_⟩
  · simp only []
    rw [emod_near _ _ (by omega) (by omega)]
    split_ifs at hpv ⊢ <;> omega
  · intro hz
    rw [ZeroOutside_mk xs h t k hk hh ht] at hz
    rw [ZeroOutside_mk _ h p k (by rw [hlen]; exact hk) (by rw [hlen]; exact hh)
      (by rw [hlen]; exact hp)]
    intro j hj hn
    rw [hlen] at hj
    rw [List.getElem?_set]
    by_cases hjp : p = j
    · rw [if_pos hjp, if_pos hp]
    · rw [if_neg hjp]
      apply hz j hj
      intro hr; apply hn
      split_ifs at hpv hr ⊢ <;> omega

theorem store_length {T : Type} (xs ys : List T) (i : Int) (v : T)
    (h : store xs i v = some ys) : ys.length = xs.length := by
  unfold store at h
  split_ifs at h
  simp only [Option.some.injEq] at h
  rw [← h, List.length_set]

/-- Whenever `RemoveFirst` returns, the buffer length is what it was. -/
theorem RemoveFirst_length {T : Type} [Inhabited T] (d d1 : deque T) (r : T × Bool)
    (h : RemoveFirst d = some (r, d1)) : d1.elements.length = d.elements.length := by
  unfold RemoveFirst at h
  split_ifs at h
  · simp only [Option.some.injEq, Prod.mk.injEq] at h
    rw [← h.2]
  · simp only [Option.bind_eq_some] at h
    obtain ⟨first, _, ys, hs, hr⟩ := h
    simp only [Option.some.injEq, Prod.mk.injEq] at hr
    rw [← hr.2]
    exact store_length _ _ _ _ hs

/-- Whenever `RemoveLast` returns, the buffer length is what it was. -/
theorem RemoveLast_length {T : Type} [Inhabited T] (d d1 : deque T) (r : T × Bool)
    (h : RemoveLast d = some (r, d1)) : d1.elements.length = d.elements.length := by
  unfold RemoveLast at h
  split_ifs at h
  · simp only [Option.some.injEq, Prod.mk.injEq] at h
    rw [← h.2]
  · simp only [Option.bind_eq_some] at h
    obtain ⟨last, _, ys, hs, hr⟩ := h
    simp only [Option.some.injEq, Prod.mk.injEq] at hr
    rw [← hr.2]
    exact store_length _ _ _ _ hs

/-- Whenever `PeekFirst` returns, the deque is what it was. -/
theorem PeekFirst_unchanged {T : Type} [Inhabited T] (d d1 : deque T) (r : T × Bool)
    (h : PeekFirst d = some (r, d1)) : d1 = d := by
  unfold PeekFirst at h
  split_ifs at h
  · simp only [Option.some.injEq, Prod.mk.injEq] at h
    exact h.2.symm
  · simp only [Option.bind_eq_some] at h
    obtain ⟨x, _, hr⟩ := h
    simp only [Option.some.injEq, Prod.mk.injEq] at hr
    exact hr.2.symm

/-- Whenever `PeekLast` returns, the deque is what it was. -/
theorem PeekLast_unchanged {T : Type} [Inhabited T] (d d1 : deque T) (r : T × Bool)
    (h : PeekLast d = some (r, d1)) : d1 = d := by
  unfold PeekLast at h
  split_ifs at h
  · simp only [Option.some.injEq, Prod.mk.injEq] at h
    exact h.2.symm
  · simp only [Option.bind_eq_some] at h
    obtain ⟨x, _, hr⟩ := h
    simp only [Option.some.injEq, Prod.mk.injEq] at hr
    exact hr.2.symm

/-- The method `RemoveFirst` on any well-formed deque, empty or not: it returns,
and keeps well-formedness, the buffer length and the zero-outside property. -/
theorem RemoveFirst_total {T : Type} [Inhabited T] (d : deque T) (hwf : WellFormed d) :
    ∃ r d1, RemoveFirst d = some (r, d1) ∧ WellFormed d1 ∧
      d1.elements.length = d.elements.length ∧ (ZeroOutside d → ZeroOutside d1) := by
  by_cases hne : d.head = d.tail
  · have hemp : IsEmpty d = true := by simp [IsEmpty, hne]
    exact ⟨(zero T, false), d, by simp [RemoveFirst, hemp], hwf, rfl, id⟩
  · obtain ⟨x, d1, h1, hwf1, _⟩ := RemoveFirst_spec d hwf hne
    obtain ⟨x2, d2, h2, _, hz⟩ := RemoveFirst_zero d hwf hne
    rw [h1] at h2
    simp only [Option.some.injEq, Prod.mk.injEq] at h2
    rw [← h2.2] at hz
    exact ⟨(x, true), d1, h1, hwf1, RemoveFirst_length d d1 _ h1, hz⟩

/-- The method `RemoveLast` on any well-formed deque, empty or not: it returns,
and keeps well-formedness, the buffer length and the zero-outside property. -/
theorem RemoveLast_total {T : Type} [Inhabited T] (d : deque T) (hwf : WellFormed d) :
    ∃ r d1, RemoveLast d = some (r, d1) ∧ WellFormed d1 ∧
      d1.elements.length = d.elements.length ∧ (ZeroOutside d → ZeroOutside d1) := by
  by_cases hne : d.head = d.tail
  · have hemp : IsEmpty d = true := by simp [IsEmpty, hne]
    exact ⟨(zero T, false), d, by simp [RemoveLast, hemp], hwf, rfl, id⟩
  · obtain ⟨x, d1, h1, hwf1, _⟩ := RemoveLast_spec d hwf hne
    obtain ⟨x2, d2, h2, _, _, hz⟩ := RemoveLast_zero d hwf hne
    rw [h1] at h2
    simp only [Option.some.injEq, Prod.mk.injEq] at h2
    rw [← h2.2] at hz
    exact ⟨(x, true), d1, h1, hwf1, RemoveLast_length d d1 _ h1, hz⟩

/-- The method `AddLast` on a well-formed deque: well-formed and non-empty
afterwards, zero-outside kept. -/
theorem AddLast_total {T : Type} [Inhabited T] (d : deque T) (e : T) (hwf : WellFormed d) :
    ∃ d1, AddLast d e = some d1 ∧ WellFormed d1 ∧ d1.head ≠ d1.tail ∧
      (ZeroOutside d → ZeroOutside d1) := by
  obtain ⟨d1, h1, hwf1, hc1⟩ := AddLast_spec d e hwf
  refine ⟨d1, h1, hwf1, head_ne_tail_of_contents_append d1 e _ hc1, ?_⟩
  intro hz
  obtain ⟨d2, h2, hz2⟩ := AddLast_zero d e hwf hz
  rw [h1] at h2
  simp only [Option.some.injEq] at h2
  rw [h2]; exact hz2

/-- The method `AddFirst` on a well-formed deque: well-formed and non-empty
afterwards, zero-outside kept. -/
theorem AddFirst_total {T : Type} [Inhabited T] (d : deque T) (e : T) (hwf : WellFormed d) :
    ∃ d1, AddFirst d e = some d1 ∧ WellFormed d1 ∧ d1.head ≠ d1.tail ∧
      (ZeroOutside d → ZeroOutside d1) := by
  obtain ⟨d1, h1, hwf1, hc1⟩ := AddFirst_spec d e hwf
  refine ⟨d1, h1, hwf1, head_ne_tail_of_contents d1 e _ hc1, ?_⟩
  intro hz
  obtain ⟨d2, h2, hz2⟩ := AddFirst_zero d e hwf hz
  rw [h1] at h2
  simp only [Option.some.injEq] at h2
  rw [h2]; exact hz2

theorem ZeroOutside_fresh {T : Type} [Inhabited T] (c : Nat) :
    ZeroOutside ({ elements := List.replicate c (zero T), head := 0, tail := 0 } : deque T) := by
  intro j hj _
  simp only [List.length_replicate] at hj
  simp [List.getElem?_replicate, hj]

/-- Any sequence of mutating calls keeps a well-formed, zero-outside deque so. -/
theorem applyCalls_inv {T : Type} [Inhabited T] (cs : List (Call T)) :
    ∀ d : deque T, WellFormed d → ZeroOutside d →
      ∃ d1, applyCalls d cs = some d1 ∧ WellFormed d1 ∧ ZeroOutside d1 := by
  induction cs with
  | nil => intro d hwf hz; exact ⟨d, rfl, hwf, hz⟩
  | cons c cs ih =>
    intro d hwf hz
    have hstep : ∃ d1, applyCall d c = some d1 ∧ WellFormed d1 ∧ ZeroOutside d1 := by
      cases c with
      | addFirst e =>
        obtain ⟨d1, h1, hwf1, _, hz1⟩ := AddFirst_total d e hwf
        exact ⟨d1, h1, hwf1, hz1 hz⟩
      | addLast e =>
        obtain ⟨d1, h1, hwf1, _, hz1⟩ := AddLast_total d e hwf
        exact ⟨d1, h1, hwf1, hz1 hz⟩
      | removeFirst =>
        obtain ⟨r, d1, h1, hwf1, _, hz1⟩ := RemoveFirst_total d hwf
        exact ⟨d1, by simp [applyCall, h1], hwf1, hz1 hz⟩
      | removeLast =>
        obtain ⟨r, d1, h1, hwf1, _, hz1⟩ := RemoveLast_total d hwf
        exact ⟨d1, by simp [applyCall, h1], hwf1, hz1 hz⟩
    obtain ⟨d1, h1, hwf1, hz1⟩ := hstep
    obtain ⟨d2, h2, hwf2, hz2⟩ := ih d1 hwf1 hz1
    exact ⟨d2, by simp only [applyCalls, h1, Option.some_bind, h2], hwf2, hz2⟩

/-- The buffer after `AddLast`: doubled, with `head = 0` and `tail` the old
capacity, exactly when the deque held `cap - 1` elements; unchanged in length
otherwise. -/
theorem AddLast_shape {T : Type} [Inhabited T] (d : deque T) (e : T) (hwf : WellFormed d) :
    ∃ d1, AddLast d e = some d1 ∧
      (Len d = (d.elements.length : Int) - 1 →
        (d1.elements.length : Int) = 2 * (d.elements.length : Int) ∧ d1.head = 0 ∧
          d1.tail = (d.elements.length : Int)) ∧
      (Len d ≠ (d.elements.length : Int) - 1 → d1.elements.length = d.elements.length) := by
  obtain ⟨xs, h, t, k, rfl, hk, hh, ht⟩ := wf_cases hwf
  rw [AddLast_mk xs h t k e hk hh ht, Len_mk xs h t k hk hh ht]
  dsimp only
  refine ⟨_, rfl, ?_, ?_⟩
  · intro hl
    have hfull : h = if t + 1 = xs.length then 0 else t + 1 := by
      split_ifs at hl ⊢ <;> omega
    rw [if_pos hfull]
    simp only [List.length_append, List.length_drop, List.length_take, List.length_replicate,
      List.length_set, and_self, and_true]
    omega
  · intro hl
    have hfull : ¬ (h = if t + 1 = xs.length then 0 else t + 1) := by
      intro hc; apply hl
      split_ifs at hc ⊢ <;> omega
    rw [if_neg hfull]
    simp

/-- The buffer after `AddFirst`: doubled, with `head = 0` and `tail` the old
capacity, exactly when the deque held `cap - 1` elements; unchanged in length
otherwise. -/
theorem AddFirst_shape {T : Type} [Inhabited T] (d : deque T) (e : T) (hwf : WellFormed d) :
    ∃ d1, AddFirst d e = some d1 ∧
      (Len d = (d.elements.length : Int) - 1 →
        (d1.elements.length : Int) = 2 * (d.elements.length : Int) ∧ d1.head = 0 ∧
          d1.tail = (d.elements.length : Int)) ∧
      (Len d ≠ (d.elements.length : Int) - 1 → d1.elements.length = d.elements.length) := by
  obtain ⟨xs, h, t, k, rfl, hk, hh, ht⟩ := wf_cases hwf
  rw [AddFirst_mk xs h t k e hk hh ht, Len_mk xs h t k hk hh ht]
  dsimp only
  refine ⟨_, rfl, ?_, ?_⟩
  · intro hl
    have hfull : (if h = 0 then xs.length - 1 else h - 1) = t := by
      split_ifs at hl ⊢ <;> omega
    rw [if_pos hfull]
    simp only [List.length_append, List.length_drop, List.length_take, List.length_replicate,
      List.length_set, and_self, and_true]
    omega
  · intro hl
    have hfull : ¬ ((if h = 0 then xs.length - 1 else h - 1) = t) := by
      intro hc; apply hl
      split_ifs at hc ⊢ <;> omega
    rw [if_neg hfull]
    simp

/-- A power of two that exceeds `n` while its half does not is the least power
of two above `n`. -/
theorem two_pow_least (n : Int) (s : Nat) (hlow : s = 0 ∨ (2 : Int) ^ (s - 1) ≤ n) :
    ∀ j : Nat, n < (2 : Int) ^ j → (2 : Int) ^ s ≤ (2 : Int) ^ j := by
  intro j hj
  rcases hlow with h | h
  · subst h
    simpa using (one_le_pow₀ (by norm_num : (1 : Int) ≤ 2) : (1 : Int) ≤ 2 ^ j)
  · have hlt : (2 : Int) ^ (s - 1) < (2 : Int) ^ j := lt_of_le_of_lt h hj
    have hsj : s - 1 < j := (pow_lt_pow_iff_right₀ (by norm_num : (1 : Int) < 2)).mp hlt
    exact pow_le_pow_right₀ (by norm_num) (by omega)

/-- From a well-formed empty deque, `AddFirst` over `es` followed by as many
`RemoveLast` calls returns the elements in insertion order. -/
theorem back_drain_from {T : Type} [Inhabited T] (d0 : deque T) (hwf : WellFormed d0)
    (hemp : d0.head = d0.tail) (es : List T) :
    ∃ dn dE, addFirstAll d0 es = some dn ∧
      removeLastN dn es.length = some (es.map (fun e => (e, true)), dE) := by
  obtain ⟨dn, hn, hwfn, hcn⟩ := addFirstAll_spec es d0 hwf
  rw [contents_of_head_eq_tail d0 hemp, List.append_nil] at hcn
  obtain ⟨dE, hr, _, _⟩ := removeLastN_spec es.length dn hwfn (by rw [hcn]; simp)
  rw [hcn, List.reverse_reverse, List.take_length] at hr
  exact ⟨dn, dE, hn, hr⟩

/-- A successful `RemoveFirst` returns what slot `head` held and leaves that slot
zero. -/
theorem RemoveFirst_slot {T : Type} [Inhabited T] (d : deque T) (hwf : WellFormed d)
    (hne : d.head ≠ d.tail) :
    ∃ x d1, RemoveFirst d = some ((x, true), d1) ∧ index d.elements d.head = some x ∧
      index d1.elements d.head = some (zero T) := by
  obtain ⟨xs, h, t, k, rfl, hk, hh, ht⟩ := wf_cases hwf
  have hne1 : h ≠ t := by intro hc; exact hne (by simp [hc])
  rw [RemoveFirst_mk xs h t k hk hh hne1]
  refine ⟨_, _, rfl, ?_, ?_⟩
  · rw [index_natCast xs h hh, List.getElem?_eq_getElem hh]
  · dsimp only
    rw [index_natCast _ h (by rw [List.length_set]; exact hh)]
    simp [List.getElem?_set, hh]

/-- A successful `RemoveLast` returns what slot `(tail - 1) mod cap` held, leaves
that slot zero and makes it the new `tail`. -/
theorem RemoveLast_slot {T : Type} [Inhabited T] (d : deque T) (hwf : WellFormed d)
    (hne : d.head ≠ d.tail) :
    ∃ x d1, RemoveLast d = some ((x, true), d1) ∧
      d1.tail = (d.tail - 1) % (d.elements.length : Int) ∧
      index d.elements d1.tail = some x ∧ index d1.elements d1.tail = some (zero T) := by
  obtain ⟨xs, h, t, k, rfl, hk, hh, ht⟩ := wf_cases hwf
  have hne1 : h ≠ t := by intro hc; exact hne (by simp [hc])
  obtain ⟨p, hp, hpv⟩ : ∃ p, p < xs.length ∧ (if t = 0 then xs.length - 1 else t - 1) = p :=
    ⟨_, by split_ifs <;> omega, rfl⟩
  rw [RemoveLast_mk xs h t k p hk ht hne1 hpv hp]
  refine ⟨_, _, rfl, ?_, ?_, ?_⟩
  · dsimp only
    rw [emod_near _ _ (by omega) (by omega)]
    split_ifs at hpv ⊢ <;> omega
  · dsimp only
    rw [index_natCast xs p hp, List.getElem?_eq_getElem hp]
  · dsimp only
    rw [index_natCast _ p (by rw [List.length_set]; exact hp)]
    simp [List.getElem?_set, hp]

/-- The method `PeekFirst` returns on every well-formed deque and leaves it as
it was. -/
theorem PeekFirst_total {T : Type} [Inhabited T] (d : deque T) (hwf : WellFormed d) :
    ∃ r, PeekFirst d = some (r, d) := by
  obtain ⟨xs, h, t, k, rfl, hk, hh, ht⟩ := wf_cases hwf
  unfold PeekFirst
  split_ifs
  · exact ⟨_, rfl⟩
  · rw [index_natCast xs h hh, List.getElem?_eq_getElem hh]
    exact ⟨_, rfl⟩

/-- The method `grow` on a well-formed deque with `head = tail`: it succeeds with
a well-formed deque of twice the buffer length. -/
theorem grow_total {T : Type} [Inhabited T] (d : deque T) (hwf : WellFormed d)
    (hfull : d.head = d.tail) :
    ∃ d1, grow d = some d1 ∧ WellFormed d1 ∧
      d1.elements.length = 2 * d.elements.length := by
  obtain ⟨xs, h, t, k, rfl, hk, hh, ht⟩ := wf_cases hwf
  have ht : h = t := by simpa using hfull
  subst ht
  rw [grow_mk xs h hh]
  refine ⟨_, rfl, wf_grown xs h k hk hh, ?_⟩
  simp only [List.length_append, List.length_drop, List.length_take, List.length_replicate]
  omega

theorem ldiff_le (b a : Nat) : Nat.ldiff b a ≤ b := by
  have h : Nat.ldiff b a = Nat.ldiff b a &&& b := by
    apply Nat.eq_of_testBit_eq
    intro i
    rw [Nat.testBit_and, Nat.testBit_ldiff]
    cases Nat.testBit b i <;> simp
  rw [h]
  exact Nat.and_le_right

/-- Masking with a non-negative mask yields an index between 0 and the mask. -/
theorem land_bounds (x m : Int) (hm : 0 ≤ m) : 0 ≤ Int.land x m ∧ Int.land x m ≤ m := by
  lift m to Nat using hm
  cases x with
  | ofNat a =>
    show (0 : Int) ≤ ((a &&& m : Nat) : Int) ∧ ((a &&& m : Nat) : Int) ≤ (m : Int)
    exact ⟨Int.natCast_nonneg _, by exact_mod_cast (Nat.and_le_right : a &&& m ≤ m)⟩
  | negSucc a =>
    show (0 : Int) ≤ ((Nat.ldiff m a : Nat) : Int) ∧ ((Nat.ldiff m a : Nat) : Int) ≤ (m : Int)
    exact ⟨Int.natCast_nonneg _, by exact_mod_cast ldiff_le m a⟩

theorem store_some {T : Type} (xs ys : List T) (i : Int) (v : T)
    (h : store xs i v = some ys) : 0 ≤ i ∧ i < xs.length ∧ ys.length = xs.length := by
  have hl := store_length xs ys i v h
  unfold store at h
  split_ifs at h with hb
  exact ⟨hb.1, hb.2, hl⟩

theorem index_some {T : Type} (xs : List T) (i : Int) (v : T)
    (h : index xs i = some v) : 0 ≤ i ∧ i < xs.length := by
  unfold index at h
  split_ifs at h with hb
  exact hb

/-- Whenever `grow` returns on a deque with `head = tail` inside the buffer, the
new indices lie within the new buffer. -/
theorem grow_inBuffer {T : Type} [Inhabited T] (xs : List T) (p : Int) (d1 : deque T)
    (h0 : 0 ≤ p) (h1 : p < xs.length)
    (h : grow ({ elements := xs, head := p, tail := p } : deque T) = some d1) :
    InBuffer d1 := by
  lift p to Nat using h0
  rw [grow_mk xs p (by exact_mod_cast h1)] at h
  simp only [Option.some.injEq] at h
  rw [← h]
  unfold InBuffer
  simp only [List.length_append, List.length_drop, List.length_take, List.length_replicate]
  omega

theorem AddFirst_inBuffer {T : Type} [Inhabited T] (d d1 : deque T) (e : T) (hin : InBuffer d)
    (h : AddFirst d e = some d1) : InBuffer d1 := by
  obtain ⟨xs, hd, tl⟩ := d
  unfold InBuffer at hin
  unfold AddFirst at h
  dsimp only at hin h
  generalize Int.land (hd - 1) ((xs.length : Int) - 1) = i at h
  simp only [Option.bind_eq_some] at h
  obtain ⟨ys, hs, hr⟩ := h
  obtain ⟨hi0, hi1, hl⟩ := store_some xs ys i e hs
  split_ifs at hr with hfull
  · subst hfull
    exact grow_inBuffer ys i d1 hi0 (by rw [hl]; exact hi1) hr
  · simp only [Option.some.injEq] at hr
    rw [← hr]
    unfold InBuffer
    dsimp only
    rw [hl]
    omega

theorem AddLast_inBuffer {T : Type} [Inhabited T] (d d1 : deque T) (e : T) (hin : InBuffer d)
    (h : AddLast d e = some d1) : InBuffer d1 := by
  obtain ⟨xs, hd, tl⟩ := d
  unfold InBuffer at hin
  unfold AddLast at h
  dsimp only at hin h
  simp only [Option.bind_eq_some] at h
  obtain ⟨ys, hs, hr⟩ := h
  obtain ⟨hi0, hi1, hl⟩ := store_some xs ys tl e hs
  have hb := land_bounds (tl + 1) ((ys.length : Int) - 1) (by rw [hl]; omega)
  generalize Int.land (tl + 1) ((ys.length : Int) - 1) = i at hr hb
  split_ifs at hr with hfull
  · subst hfull
    exact grow_inBuffer ys hd d1 hb.1 (by omega) hr
  · simp only [Option.some.injEq] at hr
    rw [← hr]
    unfold InBuffer
    dsimp only
    rw [hl]
    omega

theorem RemoveFirst_inBuffer {T : Type} [Inhabited T] (d d1 : deque T) (r : T × Bool)
    (hin : InBuffer d) (h : RemoveFirst d = some (r, d1)) : InBuffer d1 := by
  obtain ⟨xs, hd, tl⟩ := d
  unfold RemoveFirst at h
  split_ifs at h
  · simp only [Option.some.injEq, Prod.mk.injEq] at h
    rw [← h.2]; exact hin
  · unfold InBuffer at hin
    dsimp only at hin h
    simp only [Option.bind_eq_some] at h
    obtain ⟨first, hf, ys, hs, hr⟩ := h
    obtain ⟨hi0, hi1, hl⟩ := store_some xs ys hd _ hs
    have hb := land_bounds (hd + 1) ((ys.length : Int) - 1) (by rw [hl]; omega)
    generalize Int.land (hd + 1) ((ys.length : Int) - 1) = i at hr hb
    simp only [Option.some.injEq, Prod.mk.injEq] at hr
    rw [← hr.2]
    unfold InBuffer
    dsimp only
    rw [hl]
    omega

theorem RemoveLast_inBuffer {T : Type} [Inhabited T] (d d1 : deque T) (r : T × Bool)
    (hin : InBuffer d) (h : RemoveLast d = some (r, d1)) : InBuffer d1 := by
  obtain ⟨xs, hd, tl⟩ := d
  unfold RemoveLast at h
  split_ifs at h
  · simp only [Option.some.injEq, Prod.mk.injEq] at h
    rw [← h.2]; exact hin
  · unfold InBuffer at hin
    dsimp only at hin h
    generalize Int.land (tl - 1) ((xs.length : Int) - 1) = i at h
    simp only [Option.bind_eq_some] at h
    obtain ⟨last, hf, ys, hs, hr⟩ := h
    obtain ⟨hi0, hi1, hl⟩ := store_some xs ys i _ hs
    simp only [Option.some.injEq, Prod.mk.injEq] at hr
    rw [← hr.2]
    unfold InBuffer
    dsimp only
    rw [hl]
    omega

theorem NewWithSize_inBuffer {T : Type} [Inhabited T] (n : Int) (d : deque T)
    (h : NewWithSize T n = some d) : d.head = 0 ∧ d.tail = 0 ∧ InBuffer d := by
  unfold NewWithSize at h
  simp only [Option.bind_eq_some] at h
  obtain ⟨xs, _, hxs⟩ := h
  simp only [Option.some.injEq] at hxs
  rw [← hxs]
  exact ⟨rfl, rfl, le_refl _, by simp, le_refl _, by simp⟩

/-- In every deque the program can produce, `head` and `tail` lie within the
buffer, whatever the buffer length is. -/
theorem Reachable_inBuffer {T : Type} [Inhabited T] (d : deque T) (hr : Reachable d) :
    InBuffer d := by
  induction hr with
  | fresh n d h => exact (NewWithSize_inBuffer n d h).2.2
  | addFirst d d1 e _ h ih => exact AddFirst_inBuffer d d1 e ih h
  | addLast d d1 e _ h ih => exact AddLast_inBuffer d d1 e ih h
  | removeFirst d d1 r _ h ih => exact RemoveFirst_inBuffer d d1 r ih h
  | removeLast d d1 r _ h ih => exact RemoveLast_inBuffer d d1 r ih h
  | peekFirst d d1 r _ h ih => rw [PeekFirst_unchanged d d1 r h]; exact ih
  | peekLast d d1 r _ h ih => rw [PeekLast_unchanged d d1 r h]; exact ih

/-! ## The claims -/

/-- C1. AddLast appends: on every well-formed deque `AsSlice` after `AddLast(e)`
is `AsSlice` before the call with `e` appended, growth included; and from `New()`
the calls `AddLast(e1), ..., AddLast(en)` leave `AsSlice() = [e1, ..., en]`. -/
theorem AddLast_appends {T : Type} [Inhabited T] (d : deque T) (e : T) (hwf : WellFormed d) :
    (∃ l d1, AsSlice d = some l ∧ AddLast d e = some d1 ∧ AsSlice d1 = some (l ++ [e])) ∧
    (∀ es : List T, ∃ d0 dn, New T = some d0 ∧ addLastAll d0 es = some dn ∧
      AsSlice dn = some es) := by
  constructor
  · obtain ⟨d1, h1, hwf1, hc1⟩ := AddLast_spec d e hwf
    exact ⟨contents d, d1, AsSlice_eq_contents d hwf, h1, by
      rw [AsSlice_eq_contents d1 hwf1, hc1]⟩
  · intro es
    obtain ⟨s, _, hnew, hwf0, _, _⟩ := NewWithSize_spec T 16 (by norm_num) (by norm_num)
    obtain ⟨dn, hn, hwfn, hcn⟩ := addLastAll_spec es _ hwf0
    refine ⟨_, dn, hnew, hn, ?_⟩
    rw [AsSlice_eq_contents dn hwfn, hcn, contents_fresh]
    rfl

/-- C1 at a concrete deque: a full-but-one buffer of capacity 4, where `AddLast`
triggers `grow`. -/
theorem AddLast_appends_witness :
    WellFormed ({ elements := [3, 0, 1, 2], head := 2, tail := 1 } : deque Int) ∧
    ((∃ l d1, AsSlice ({ elements := [3, 0, 1, 2], head := 2, tail := 1 } : deque Int) = some l ∧
        AddLast ({ elements := [3, 0, 1, 2], head := 2, tail := 1 } : deque Int) 4 = some d1 ∧
        AsSlice d1 = some (l ++ [4])) ∧
     (∀ es : List Int, ∃ d0 dn, New Int = some d0 ∧ addLastAll d0 es = some dn ∧
        AsSlice dn = some es)) :=
  have hwf : WellFormed ({ elements := [3, 0, 1, 2], head := 2, tail := 1 } : deque Int) :=
    ⟨⟨2, by decide⟩, by decide, by decide, by decide, by decide⟩
  ⟨hwf, AddLast_appends _ 4 hwf⟩

/-- C2. AddFirst prepends: on every well-formed deque `AsSlice` after
`AddFirst(e)` is `e` followed by `AsSlice` before the call, growth and the wrap of
`head` from 0 to `cap - 1` included; and from `NewWithSize(1)` the calls
`AddFirst(e1), ..., AddFirst(en)` leave `AsSlice() = [en, ..., e1]`. -/
theorem AddFirst_prepends {T : Type} [Inhabited T] (d : deque T) (e : T) (hwf : WellFormed d) :
    (∃ l d1, AsSlice d = some l ∧ AddFirst d e = some d1 ∧ AsSlice d1 = some (e :: l)) ∧
    (∀ es : List T, ∃ d0 dn, NewWithSize T 1 = some d0 ∧ addFirstAll d0 es = some dn ∧
      AsSlice dn = some es.reverse) := by
  constructor
  · obtain ⟨d1, h1, hwf1, hc1⟩ := AddFirst_spec d e hwf
    exact ⟨contents d, d1, AsSlice_eq_contents d hwf, h1, by
      rw [AsSlice_eq_contents d1 hwf1, hc1]⟩
  · intro es
    obtain ⟨s, _, hnew, hwf0, _, _⟩ := NewWithSize_spec T 1 (by norm_num) (by norm_num)
    obtain ⟨dn, hn, hwfn, hcn⟩ := addFirstAll_spec es _ hwf0
    refine ⟨_, dn, hnew, hn, ?_⟩
    rw [AsSlice_eq_contents dn hwfn, hcn, contents_fresh]
    simp

/-- C2 at a concrete deque: `head = 0`, so `AddFirst` wraps `head` to `cap - 1`. -/
theorem AddFirst_prepends_witness :
    WellFormed ({ elements := [1, 2, 0, 0], head := 0, tail := 2 } : deque Int) ∧
    ((∃ l d1, AsSlice ({ elements := [1, 2, 0, 0], head := 0, tail := 2 } : deque Int) = some l ∧
        AddFirst ({ elements := [1, 2, 0, 0], head := 0, tail := 2 } : deque Int) 5 = some d1 ∧
        AsSlice d1 = some (5 :: l)) ∧
     (∀ es : List Int, ∃ d0 dn, NewWithSize Int 1 = some d0 ∧ addFirstAll d0 es = some dn ∧
        AsSlice dn = some es.reverse)) :=
  have hwf : WellFormed ({ elements := [1, 2, 0, 0], head := 0, tail := 2 } : deque Int) :=
    ⟨⟨2, by decide⟩, by decide, by decide, by decide, by decide⟩
  ⟨hwf, AddFirst_prepends _ 5 hwf⟩

/-- C3. PeekLast at `tail = 0`: after `New[int]()` and `AddFirst(1)` the deque is
well-formed and non-empty with `tail = 0` and `AsSlice() = [1]`; `PeekLast` reads
`d.elements[d.tail-1]`, index `-1`, and panics, while `RemoveLast`, which masks
the index, returns `(1, true)`. -/
theorem PeekLast_fails_when_tail_zero :
    ∃ d1 : deque Int, (New Int).bind (fun d0 => AddFirst d0 1) = some d1 ∧
      WellFormed d1 ∧ d1.head ≠ d1.tail ∧ d1.tail = 0 ∧ AsSlice d1 = some [1] ∧
      PeekLast d1 = none ∧ ∃ d2, RemoveLast d1 = some ((1, true), d2) := by
  have hwf : WellFormed
      ({ elements := List.replicate 31 0 ++ [1], head := 31, tail := 0 } : deque Int) :=
    ⟨⟨5, by decide⟩, by decide, by decide, by decide, by decide⟩
  have hne : ({ elements := List.replicate 31 0 ++ [1], head := 31, tail := 0 } :
      deque Int).head ≠ 0 := by decide
  have hc : contents
      ({ elements := List.replicate 31 0 ++ [1], head := 31, tail := 0 } : deque Int) = [1] := by
    decide
  refine ⟨_, New_AddFirst_eval, hwf, hne, rfl, ?_, by decide, ?_⟩
  · rw [AsSlice_eq_contents _ hwf, hc]
  · obtain ⟨x, d2, h2, _, hc2⟩ := RemoveLast_spec _ hwf hne
    rw [hc] at hc2
    have hx : x = 1 := by
      cases hl : contents d2 with
      | nil => rw [hl] at hc2; simpa using hc2.symm
      | cons a l =>
        rw [hl] at hc2
        have := congrArg List.length hc2
        simp at this
    subst hx
    exact ⟨d2, h2⟩

/-- C4. RemoveFirst removes and returns the front: on a well-formed, non-empty
deque `AsSlice()` is some `x :: rest`, `RemoveFirst()` returns `(x, true)`, and
afterwards `AsSlice()` is `rest` and `Len()` is one less. -/
theorem RemoveFirst_removes_front {T : Type} [Inhabited T] (d : deque T) (hwf : WellFormed d)
    (hne : d.head ≠ d.tail) :
    ∃ x rest d1, AsSlice d = some (x :: rest) ∧ RemoveFirst d = some ((x, true), d1) ∧
      AsSlice d1 = some rest ∧ Len d1 = Len d - 1 := by
  obtain ⟨x, d1, h1, hwf1, hc1⟩ := RemoveFirst_spec d hwf hne
  refine ⟨x, contents d1, d1, ?_, h1, AsSlice_eq_contents d1 hwf1, ?_⟩
  · rw [AsSlice_eq_contents d hwf, hc1]
  · rw [Len_eq_length_contents d hwf, Len_eq_length_contents d1 hwf1, hc1]
    simp

/-- C4 at a concrete deque whose elements wrap around the end of the buffer. -/
theorem RemoveFirst_removes_front_witness :
    WellFormed ({ elements := [3, 0, 1, 2], head := 2, tail := 1 } : deque Int) ∧
    ({ elements := [3, 0, 1, 2], head := 2, tail := 1 } : deque Int).head ≠
      ({ elements := [3, 0, 1, 2], head := 2, tail := 1 } : deque Int).tail ∧
    ∃ x rest d1,
      AsSlice ({ elements := [3, 0, 1, 2], head := 2, tail := 1 } : deque Int) = some (x :: rest) ∧
      RemoveFirst ({ elements := [3, 0, 1, 2], head := 2, tail := 1 } : deque Int) =
        some ((x, true), d1) ∧
      AsSlice d1 = some rest ∧
      Len d1 = Len ({ elements := [3, 0, 1, 2], head := 2, tail := 1 } : deque Int) - 1 :=
  have hwf : WellFormed ({ elements := [3, 0, 1, 2], head := 2, tail := 1 } : deque Int) :=
    ⟨⟨2, by decide⟩, by decide, by decide, by decide, by decide⟩
  ⟨hwf, by decide, RemoveFirst_removes_front _ hwf (by decide)⟩

/-- C5. RemoveLast removes and returns the back: on a well-formed, non-empty
deque `AsSlice()` is some `init ++ [x]`, `RemoveLast()` returns `(x, true)`, and
afterwards `AsSlice()` is `init` and `Len()` is one less; `tail = 0` is included. -/
theorem RemoveLast_removes_back {T : Type} [Inhabited T] (d : deque T) (hwf : WellFormed d)
    (hne : d.head ≠ d.tail) :
    ∃ x init d1, AsSlice d = some (init ++ [x]) ∧ RemoveLast d = some ((x, true), d1) ∧
      AsSlice d1 = some init ∧ Len d1 = Len d - 1 := by
  obtain ⟨x, d1, h1, hwf1, hc1⟩ := RemoveLast_spec d hwf hne
  refine ⟨x, contents d1, d1, ?_, h1, AsSlice_eq_contents d1 hwf1, ?_⟩
  · rw [AsSlice_eq_contents d hwf, hc1]
  · rw [Len_eq_length_contents d hwf, Len_eq_length_contents d1 hwf1, hc1]
    simp

/-- C5 at a concrete deque with `tail = 0`, where the removed slot is `cap - 1`. -/
theorem RemoveLast_removes_back_witness :
    WellFormed ({ elements := [0, 1, 2, 3], head := 1, tail := 0 } : deque Int) ∧
    ({ elements := [0, 1, 2, 3], head := 1, tail := 0 } : deque Int).head ≠
      ({ elements := [0, 1, 2, 3], head := 1, tail := 0 } : deque Int).tail ∧
    ∃ x init d1,
      AsSlice ({ elements := [0, 1, 2, 3], head := 1, tail := 0 } : deque Int) =
        some (init ++ [x]) ∧
      RemoveLast ({ elements := [0, 1, 2, 3], head := 1, tail := 0 } : deque Int) =
        some ((x, true), d1) ∧
      AsSlice d1 = some init ∧
      Len d1 = Len ({ elements := [0, 1, 2, 3], head := 1, tail := 0 } : deque Int) - 1 :=
  have hwf : WellFormed ({ elements := [0, 1, 2, 3], head := 1, tail := 0 } : deque Int) :=
    ⟨⟨2, by decide⟩, by decide, by decide, by decide, by decide⟩
  ⟨hwf, by decide, RemoveLast_removes_back _ hwf (by decide)⟩

/-- C6. Empty deque yields not-found and is left unchanged: on every deque with
`head == tail` that the program can produce, or that is well-formed, each of
`PeekFirst`, `PeekLast`, `RemoveFirst` and `RemoveLast` returns `(zero, false)` and
leaves buffer, `head` and `tail` unchanged, and `AsSlice` returns the empty slice;
the deques that `NewWithSize(n)` and `New()` return are such deques. -/
theorem empty_not_found {T : Type} [Inhabited T] (d : deque T)
    (hd : Reachable d ∨ WellFormed d) (h : d.head = d.tail) :
    PeekFirst d = some ((zero T, false), d) ∧ PeekLast d = some ((zero T, false), d) ∧
    RemoveFirst d = some ((zero T, false), d) ∧ RemoveLast d = some ((zero T, false), d) ∧
    AsSlice d = some [] ∧
    (∀ (n : Int) (d0 : deque T), NewWithSize T n = some d0 →
      Reachable d0 ∧ d0.head = d0.tail) ∧
    (∀ d0 : deque T, New T = some d0 → Reachable d0 ∧ d0.head = d0.tail) := by
  have hemp : IsEmpty d = true := by simp [IsEmpty, h]
  have hin : 0 ≤ d.head ∧ d.head ≤ (d.elements.length : Int) := by
    rcases hd with hr | hwf
    · have := Reachable_inBuffer d hr
      exact ⟨this.1, this.2.1⟩
    · exact ⟨hwf.2.1, le_of_lt hwf.2.2.1⟩
  have hfresh : ∀ (n : Int) (d0 : deque T), NewWithSize T n = some d0 →
      Reachable d0 ∧ d0.head = d0.tail := by
    intro n d0 hd0
    obtain ⟨h0, t0, _⟩ := NewWithSize_inBuffer n d0 hd0
    exact ⟨Reachable.fresh n d0 hd0, by rw [h0, t0]⟩
  exact ⟨by simp [PeekFirst, hemp], by simp [PeekLast, hemp], by simp [RemoveFirst, hemp],
    by simp [RemoveLast, hemp], AsSlice_of_head_eq_tail d h hin.1 hin.2, hfresh,
    fun d0 hd0 => hfresh DefaultDequeSize d0 hd0⟩

/-- C6 at the deque left by `New[int]()`, `AddLast(1)` and `RemoveFirst()`, which
is empty with `head = tail = 1`. -/
theorem empty_not_found_witness :
    (Reachable ({ elements := List.replicate 32 0, head := 1, tail := 1 } : deque Int) ∨
      WellFormed ({ elements := List.replicate 32 0, head := 1, tail := 1 } : deque Int)) ∧
    ({ elements := List.replicate 32 0, head := 1, tail := 1 } : deque Int).head =
      ({ elements := List.replicate 32 0, head := 1, tail := 1 } : deque Int).tail ∧
    PeekLast ({ elements := List.replicate 32 0, head := 1, tail := 1 } : deque Int) =
      some ((0, false), { elements := List.replicate 32 0, head := 1, tail := 1 }) ∧
    AsSlice ({ elements := List.replicate 32 0, head := 1, tail := 1 } : deque Int) = some [] :=
  have hr : Reachable ({ elements := List.replicate 32 0, head := 1, tail := 1 } : deque Int) :=
    Reachable.removeFirst
      ({ elements := 1 :: List.replicate 31 0, head := 0, tail := 1 } : deque Int)
      ({ elements := List.replicate 32 0, head := 1, tail := 1 } : deque Int) (1, true)
      (Reachable.addLast ({ elements := List.replicate 32 0, head := 0, tail := 0 } : deque Int)
        ({ elements := 1 :: List.replicate 31 0, head := 0, tail := 1 } : deque Int) 1
        (Reachable.fresh 16
          ({ elements := List.replicate 32 0, head := 0, tail := 0 } : deque Int) (by decide))
        (by decide))
      (by decide)
  ⟨Or.inl hr, rfl, (empty_not_found _ (Or.inl hr) rfl).2.1,
    (empty_not_found _ (Or.inl hr) rfl).2.2.2.2.1⟩

/-- C7. PeekFirst returns the first element without mutation: on a well-formed,
non-empty deque `PeekFirst()` returns `(x, true)` for the first element `x` of
`AsSlice()` and leaves the deque as it was, so `Len()` and `AsSlice()` are the
same after the call as before. -/
theorem PeekFirst_returns_front {T : Type} [Inhabited T] (d : deque T) (hwf : WellFormed d)
    (hne : d.head ≠ d.tail) :
    ∃ x rest d1, AsSlice d = some (x :: rest) ∧ PeekFirst d = some ((x, true), d1) ∧
      d1 = d ∧ Len d1 = Len d ∧ AsSlice d1 = AsSlice d := by
  obtain ⟨x, d2, h2, _, hc2⟩ := RemoveFirst_spec d hwf hne
  have hemp : IsEmpty d = false := by simp [IsEmpty, hne]
  refine ⟨x, contents d2, d, ?_, ?_, rfl, rfl, rfl⟩
  · rw [AsSlice_eq_contents d hwf, hc2]
  · unfold RemoveFirst at h2
    unfold PeekFirst
    simp only [hemp, Bool.false_eq_true, if_false, Option.bind_eq_some] at h2 ⊢
    obtain ⟨first, hf, ys, _, hr⟩ := h2
    refine ⟨first, hf, ?_⟩
    simp only [Option.some.injEq, Prod.mk.injEq] at hr ⊢
    exact ⟨⟨hr.1.1, trivial⟩, trivial⟩

/-- C7 at a concrete deque whose elements wrap around the end of the buffer. -/
theorem PeekFirst_returns_front_witness :
    WellFormed ({ elements := [3, 0, 1, 2], head := 2, tail := 1 } : deque Int) ∧
    ({ elements := [3, 0, 1, 2], head := 2, tail := 1 } : deque Int).head ≠
      ({ elements := [3, 0, 1, 2], head := 2, tail := 1 } : deque Int).tail ∧
    ∃ x rest d1,
      AsSlice ({ elements := [3, 0, 1, 2], head := 2, tail := 1 } : deque Int) = some (x :: rest) ∧
      PeekFirst ({ elements := [3, 0, 1, 2], head := 2, tail := 1 } : deque Int) =
        some ((x, true), d1) ∧
      d1 = ({ elements := [3, 0, 1, 2], head := 2, tail := 1 } : deque Int) ∧
      Len d1 = Len ({ elements := [3, 0, 1, 2], head := 2, tail := 1 } : deque Int) ∧
      AsSlice d1 = AsSlice ({ elements := [3, 0, 1, 2], head := 2, tail := 1 } : deque Int) :=
  have hwf : WellFormed ({ elements := [3, 0, 1, 2], head := 2, tail := 1 } : deque Int) :=
    ⟨⟨2, by decide⟩, by decide, by decide, by decide, by decide⟩
  ⟨hwf, by decide, PeekFirst_returns_front _ hwf (by decide)⟩

/-- C8. FIFO drain: after `New()` and `AddLast(e1), ..., AddLast(en)` the first
`i ≤ n` calls of `RemoveFirst()` return `(e1, true), ..., (ei, true)`, after them
`Len() = n - i` and `AsSlice() = [e_{i+1}, ..., en]`, and call `n + 1` returns
`(zero, false)`. -/
theorem fifo_drain {T : Type} [Inhabited T] (es : List T) :
    ∃ d0 dn, New T = some d0 ∧ addLastAll d0 es = some dn ∧
      (∀ i, i ≤ es.length →
        ∃ di, removeFirstN dn i = some ((es.take i).map (fun e => (e, true)), di) ∧
          Len di = (es.length : Int) - (i : Int) ∧ AsSlice di = some (es.drop i)) ∧
      ∃ dE, removeFirstN dn (es.length + 1) =
        some (es.map (fun e => (e, true)) ++ [(zero T, false)], dE) := by
  obtain ⟨s, _, hnew, hwf0, _, _⟩ := NewWithSize_spec T 16 (by norm_num) (by norm_num)
  obtain ⟨dn, hn, hwfn, hcn⟩ := addLastAll_spec es _ hwf0
  rw [contents_fresh, List.nil_append] at hcn
  refine ⟨_, dn, hnew, hn, ?_, ?_⟩
  · intro i hi
    obtain ⟨di, hr, hwfi, hci⟩ := removeFirstN_spec i dn hwfn (by rw [hcn]; exact hi)
    rw [hcn] at hr hci
    refine ⟨di, hr, ?_, ?_⟩
    · rw [Len_eq_length_contents di hwfi, hci, List.length_drop]
      omega
    · rw [AsSlice_eq_contents di hwfi, hci]
  · obtain ⟨dE, hE⟩ := removeFirstN_past_end es.length dn hwfn (by rw [hcn])
    rw [hcn] at hE
    exact ⟨dE, hE⟩

/-- C9. Back drain after front inserts: after `New()` and
`AddFirst(e1), ..., AddFirst(en)` the first `i ≤ n` calls of `RemoveLast()` return
`(e1, true), ..., (ei, true)`, in insertion order, and after them `Len() = n - i`
and `AsSlice() = [en, ..., e_{i+1}]`. -/
theorem back_drain_in_insertion_order {T : Type} [Inhabited T] (es : List T) :
    ∃ d0 dn, New T = some d0 ∧ addFirstAll d0 es = some dn ∧
      ∀ i, i ≤ es.length →
        ∃ di, removeLastN dn i = some ((es.take i).map (fun e => (e, true)), di) ∧
          Len di = (es.length : Int) - (i : Int) ∧ AsSlice di = some (es.drop i).reverse := by
  obtain ⟨s, _, hnew, hwf0, _, _⟩ := NewWithSize_spec T 16 (by norm_num) (by norm_num)
  obtain ⟨dn, hn, hwfn, hcn⟩ := addFirstAll_spec es _ hwf0
  rw [contents_fresh, List.append_nil] at hcn
  refine ⟨_, dn, hnew, hn, ?_⟩
  intro i hi
  obtain ⟨di, hr, hwfi, hci⟩ := removeLastN_spec i dn hwfn (by rw [hcn]; simpa using hi)
  rw [hcn] at hr hci
  rw [List.reverse_reverse] at hr
  have hrev : es.reverse.take (es.reverse.length - i) = (es.drop i).reverse := by
    rw [List.length_reverse, List.take_reverse]
    congr 2
    omega
  rw [hrev] at hci
  refine ⟨di, hr, ?_, ?_⟩
  · rw [Len_eq_length_contents di hwfi, hci, List.length_reverse, List.length_drop]
    omega
  · rw [AsSlice_eq_contents di hwfi, hci]

/-- C10. Growth correctness against a list model: for `0 ≤ n < 2 ^ 32` and every
sequence of `AddFirst`/`AddLast` calls applied to `NewWithSize(n)`, every call
succeeds, `AsSlice()` is the list built from the empty list by prepending for
each `AddFirst` and appending for each `AddLast`, and `Len()` is the number of
calls. -/
theorem inserts_refine_list {T : Type} [Inhabited T] (n : Int) (h0 : 0 ≤ n) (h1 : n < 2 ^ 32)
    (cs : List (Insert T)) :
    ∃ d0 d1, NewWithSize T n = some d0 ∧ applyInserts d0 cs = some d1 ∧
      AsSlice d1 = some (listInserts [] cs) ∧ Len d1 = (cs.length : Int) := by
  obtain ⟨s, _, hnew, hwf0, _, _⟩ := NewWithSize_spec T n h0 h1
  obtain ⟨d1, hd1, hwf1, hc1⟩ := applyInserts_spec cs _ hwf0
  rw [contents_fresh] at hc1
  refine ⟨_, d1, hnew, hd1, ?_, ?_⟩
  · rw [AsSlice_eq_contents d1 hwf1, hc1]
  · rw [Len_eq_length_contents d1 hwf1, hc1, length_listInserts]
    simp

/-- C10 at `NewWithSize(1)` (capacity 2) and seven mixed insertions, which grow
the buffer twice. -/
theorem inserts_refine_list_witness :
    (0 : Int) ≤ 1 ∧ (1 : Int) < 2 ^ 32 ∧
    ∃ d0 d1, NewWithSize Int 1 = some d0 ∧
      applyInserts d0 [Insert.last 1, Insert.first 2, Insert.last 3, Insert.first 4,
        Insert.first 5, Insert.last 6, Insert.last 7] = some d1 ∧
      AsSlice d1 = some (listInserts [] [Insert.last 1, Insert.first 2, Insert.last 3,
        Insert.first 4, Insert.first 5, Insert.last 6, Insert.last 7]) ∧
      Len d1 = (([Insert.last 1, Insert.first 2, Insert.last 3, Insert.first 4,
        Insert.first 5, Insert.last 6, Insert.last (7 : Int)] : List (Insert Int)).length : Int) :=
  ⟨by decide, by decide, inserts_refine_list 1 (by decide) (by decide) _⟩

/-- C11. AsSlice lists the logical elements front to back across the wrap: on a
well-formed deque it returns a slice of length `(tail - head) mod cap` whose
`i`-th element is the buffer element at `(head + i) mod cap`; that slice is
`buffer[head:tail]` when `head < tail`, `buffer[head:cap]` followed by
`buffer[0:tail]` when `head > tail`, and empty when `head == tail`. -/
theorem AsSlice_lists_logical {T : Type} [Inhabited T] (d : deque T) (hwf : WellFormed d) :
    ∃ l, AsSlice d = some l ∧
      (l.length : Int) = (d.tail - d.head) % (d.elements.length : Int) ∧
      (∀ i : Nat, i < l.length →
        l[i]? = d.elements[((d.head + (i : Int)) % (d.elements.length : Int)).toNat]?) ∧
      (d.head < d.tail → slice d.elements d.head d.tail = some l) ∧
      (d.tail < d.head → ∃ a b, slice d.elements d.head d.elements.length = some a ∧
        slice d.elements 0 d.tail = some b ∧ l = a ++ b) ∧
      (d.head = d.tail → l = []) := by
  refine ⟨contents d, AsSlice_eq_contents d hwf, ?_, ?_, ?_, ?_, ?_⟩
  · obtain ⟨xs, h, t, k, rfl, hk, hh, ht⟩ := wf_cases hwf
    rw [length_contents_mk xs h t ht]
    dsimp only
    rw [emod_near _ _ (by omega) (by omega)]
    split_ifs <;> omega
  · obtain ⟨xs, h, t, k, rfl, hk, hh, ht⟩ := wf_cases hwf
    intro i hi
    rw [length_contents_mk xs h t ht] at hi
    dsimp only
    have key : ((h : Int) + (i : Int)) % (xs.length : Int) =
        ((if h + i < xs.length then h + i else h + i - xs.length : Nat) : Int) := by
      rw [emod_near _ _ (by omega) (by split_ifs at hi <;> omega)]
      split_ifs <;> omega
    rw [key, Int.toNat_ofNat, contents_mk]
    split_ifs at hi ⊢ <;>
    simp only [List.getElem?_append, List.getElem?_take, List.getElem?_drop,
      List.length_take, List.length_drop] <;>
    split_ifs <;> first | rfl | omega | (congr 1; omega)
  · intro hlt
    obtain ⟨xs, h, t, k, rfl, hk, hh, ht⟩ := wf_cases hwf
    have hlt1 : h < t := by dsimp only at hlt; exact_mod_cast hlt
    rw [slice_natCast xs h t (by omega) (by omega), contents_mk, if_pos (by omega)]
  · intro hgt
    obtain ⟨xs, h, t, k, rfl, hk, hh, ht⟩ := wf_cases hwf
    have hgt1 : t < h := by dsimp only at hgt; exact_mod_cast hgt
    have h0 : (0 : Int) = ((0 : Nat) : Int) := rfl
    refine ⟨xs.drop h, xs.take t, ?_, ?_, ?_⟩
    · dsimp only
      rw [slice_natCast xs h xs.length (by omega) le_rfl, List.take_length]
    · dsimp only
      rw [h0, slice_natCast xs 0 t (by omega) (by omega), List.drop_zero]
    · rw [contents_mk, if_neg (by omega)]
  · intro heq
    exact contents_of_head_eq_tail d heq

/-- C11 at a concrete deque whose elements wrap around the end of the buffer. -/
theorem AsSlice_lists_logical_witness :
    WellFormed ({ elements := [3, 0, 1, 2], head := 2, tail := 1 } : deque Int) ∧
    ∃ l, AsSlice ({ elements := [3, 0, 1, 2], head := 2, tail := 1 } : deque Int) = some l ∧
      (l.length : Int) = ((1 : Int) - 2) % ((4 : Nat) : Int) ∧
      (∀ i : Nat, i < l.length →
        l[i]? = ([3, 0, 1, 2] : List Int)[(((2 : Int) + (i : Int)) % ((4 : Nat) : Int)).toNat]?) ∧
      ((2 : Int) < 1 → slice ([3, 0, 1, 2] : List Int) 2 1 = some l) ∧
      ((1 : Int) < 2 → ∃ a b, slice ([3, 0, 1, 2] : List Int) 2 ((4 : Nat) : Int) = some a ∧
        slice ([3, 0, 1, 2] : List Int) 0 1 = some b ∧ l = a ++ b) ∧
      ((2 : Int) = 1 → l = []) :=
  have hwf : WellFormed ({ elements := [3, 0, 1, 2], head := 2, tail := 1 } : deque Int) :=
    ⟨⟨2, by decide⟩, by decide, by decide, by decide, by decide⟩
  ⟨hwf, AsSlice_lists_logical _ hwf⟩

/-- C12. Len counts the elements and is never negative: on a well-formed deque
the masked difference `(tail - head) & (cap - 1)` is `(tail - head) mod cap`, also
when `tail < head`; it lies between 0 and `cap - 1`, equals the length of
`AsSlice()`, and is 0 exactly when `IsEmpty()` is true. -/
theorem Len_counts_elements {T : Type} [Inhabited T] (d : deque T) (hwf : WellFormed d) :
    Len d = Int.land (d.tail - d.head) ((d.elements.length : Int) - 1) ∧
    Len d = (d.tail - d.head) % (d.elements.length : Int) ∧
    0 ≤ Len d ∧ Len d ≤ (d.elements.length : Int) - 1 ∧
    (∃ l, AsSlice d = some l ∧ Len d = (l.length : Int)) ∧
    (Len d = 0 ↔ IsEmpty d = true) := by
  refine ⟨rfl, ?_, ?_, ?_, ⟨contents d, AsSlice_eq_contents d hwf,
    Len_eq_length_contents d hwf⟩, ?_⟩
  · obtain ⟨xs, h, t, k, rfl, hk, hh, ht⟩ := wf_cases hwf
    rw [Len_mk xs h t k hk hh ht]
    dsimp only
    rw [emod_near _ _ (by omega) (by omega)]
    split_ifs <;> omega
  · rw [Len_eq_length_contents d hwf]
    exact Int.natCast_nonneg _
  · obtain ⟨xs, h, t, k, rfl, hk, hh, ht⟩ := wf_cases hwf
    rw [Len_mk xs h t k hk hh ht]
    dsimp only
    split_ifs <;> omega
  · obtain ⟨xs, h, t, k, rfl, hk, hh, ht⟩ := wf_cases hwf
    rw [Len_mk xs h t k hk hh ht]
    unfold IsEmpty
    simp only [decide_eq_true_eq, Nat.cast_inj]
    constructor
    · intro hl
      split_ifs at hl <;> omega
    · intro heq
      subst heq
      simp

/-- C12 at a concrete deque with `tail < head`, where `tail - head` is negative. -/
theorem Len_counts_elements_witness :
    WellFormed ({ elements := [3, 0, 1, 2], head := 2, tail := 1 } : deque Int) ∧
    Len ({ elements := [3, 0, 1, 2], head := 2, tail := 1 } : deque Int) =
      ((1 : Int) - 2) % ((4 : Nat) : Int) ∧
    (0 : Int) ≤ Len ({ elements := [3, 0, 1, 2], head := 2, tail := 1 } : deque Int) :=
  have hwf : WellFormed ({ elements := [3, 0, 1, 2], head := 2, tail := 1 } : deque Int) :=
    ⟨⟨2, by decide⟩, by decide, by decide, by decide, by decide⟩
  ⟨hwf, (Len_counts_elements _ hwf).2.1, (Len_counts_elements _ hwf).2.2.1⟩

/-- C13, as stated, fails: `NewWithSize(1)`, `NewWithSize(8)` and
`NewWithSize(16)` have buffer lengths 2, 16 and 32, not the smallest powers of two
`1`, `8` and `16` that are greater than or equal to the request. -/
theorem NewWithSize_exceeds_request :
    (∃ d, NewWithSize Int 1 = some d ∧ d.elements.length = 2 ∧ d.elements.length ≠ 1) ∧
    (∃ d, NewWithSize Int 8 = some d ∧ d.elements.length = 16 ∧ d.elements.length ≠ 8) ∧
    (∃ d, NewWithSize Int 16 = some d ∧ d.elements.length = 32 ∧ d.elements.length ≠ 16) :=
  ⟨⟨{ elements := List.replicate 2 0, head := 0, tail := 0 }, by decide, by decide, by decide⟩,
   ⟨{ elements := List.replicate 16 0, head := 0, tail := 0 }, by decide, by decide, by decide⟩,
   ⟨{ elements := List.replicate 32 0, head := 0, tail := 0 }, by decide, by decide, by decide⟩⟩

/-- C13, amended. For `1 ≤ n < 2 ^ 32` the buffer length of `NewWithSize(n)` is
the smallest power of two strictly greater than `n`, and it is at least 1. -/
theorem NewWithSize_rounds_above {T : Type} [Inhabited T] (n : Int) (h1 : 1 ≤ n)
    (h2 : n < 2 ^ 32) :
    ∃ (d : deque T) (s : Nat), NewWithSize T n = some d ∧ d.elements.length = 2 ^ s ∧
      n < (2 : Int) ^ s ∧ (∀ j : Nat, n < (2 : Int) ^ j → (2 : Int) ^ s ≤ (2 : Int) ^ j) ∧
      1 ≤ d.elements.length := by
  obtain ⟨s, _, hnew, _, hlt, hlow⟩ := NewWithSize_spec T n (by omega) h2
  refine ⟨_, s, hnew, by simp, hlt, two_pow_least n s hlow, ?_⟩
  simp only [List.length_replicate]
  exact Nat.one_le_two_pow

/-- C13, amended, at `n = 8`. -/
theorem NewWithSize_rounds_above_witness :
    (1 : Int) ≤ 8 ∧ (8 : Int) < 2 ^ 32 ∧
    ∃ (d : deque Int) (s : Nat), NewWithSize Int 8 = some d ∧ d.elements.length = 2 ^ s ∧
      (8 : Int) < (2 : Int) ^ s ∧
      (∀ j : Nat, (8 : Int) < (2 : Int) ^ j → (2 : Int) ^ s ≤ (2 : Int) ^ j) ∧
      1 ≤ d.elements.length :=
  ⟨by decide, by decide, NewWithSize_rounds_above 8 (by decide) (by decide)⟩

/-- C14, as stated, fails: the buffer of `New()` has length 32, not
`DefaultDequeSize = 16`. -/
theorem New_capacity_is_not_default :
    ∃ d, New Int = some d ∧ d.elements.length = 32 ∧
      (d.elements.length : Int) ≠ DefaultDequeSize :=
  ⟨{ elements := List.replicate 32 0, head := 0, tail := 0 }, by decide, by decide, by decide⟩

/-- C14, amended. The deque returned by `New()` is empty (`head = tail = 0`) and
its buffer length is exactly 32, the smallest power of two strictly greater than
`DefaultDequeSize = 16`. -/
theorem New_capacity {T : Type} [Inhabited T] :
    ∃ d : deque T, New T = some d ∧ d.head = 0 ∧ d.tail = 0 ∧ IsEmpty d = true ∧
      d.elements = List.replicate 32 (zero T) ∧ d.elements.length = 32 ∧
      DefaultDequeSize = 16 ∧ DefaultDequeSize < (2 : Int) ^ 5 ∧
      (∀ j : Nat, DefaultDequeSize < (2 : Int) ^ j → (2 : Int) ^ 5 ≤ (2 : Int) ^ j) := by
  have hn : nextPowerOf2 DefaultDequeSize = ((32 : Nat) : Int) := by decide
  refine ⟨{ elements := List.replicate 32 (zero T), head := 0, tail := 0 }, ?_, rfl, rfl,
    by simp [IsEmpty], rfl, by simp, rfl, by decide, ?_⟩
  · unfold New NewWithSize
    simp only [hn, make_natCast, Option.some_bind]
  · exact two_pow_least DefaultDequeSize 5 (Or.inr (by decide))

/-- C15. NewWithSize rounds up to the nearest greater power of two: for
`0 ≤ n < 2 ^ 32`, `nextPowerOf2(n)` is the smallest power of two strictly greater
than `n`, and `NewWithSize(n)` returns the empty deque with `head = tail = 0`
whose buffer has exactly that length and only zero slots; `0`, `1` and `16` give
`1`, `2` and `32`. -/
theorem nextPowerOf2_least_above {T : Type} [Inhabited T] (n : Int) (h0 : 0 ≤ n)
    (h1 : n < 2 ^ 32) :
    (∃ s : Nat, nextPowerOf2 n = (2 : Int) ^ s ∧ n < (2 : Int) ^ s ∧
      (∀ j : Nat, n < (2 : Int) ^ j → (2 : Int) ^ s ≤ (2 : Int) ^ j) ∧
      NewWithSize T n =
        some { elements := List.replicate (2 ^ s) (zero T), head := 0, tail := 0 }) ∧
    nextPowerOf2 0 = 1 ∧ nextPowerOf2 1 = 2 ∧ nextPowerOf2 16 = 32 := by
  refine ⟨?_, by decide, by decide, by decide⟩
  obtain ⟨s, _, hnew, _, hlt, hlow⟩ := NewWithSize_spec T n h0 h1
  refine ⟨s, ?_, hlt, two_pow_least n s hlow, hnew⟩
  lift n to Nat using h0
  obtain ⟨s2, _, hv, hlt2, hlow2⟩ := nextPowerOf2_natCast n (by exact_mod_cast h1)
  have hs : s2 = s := by
    have hlt2i : (n : Int) < (2 : Int) ^ s2 := by exact_mod_cast hlt2
    have hlow2i : s2 = 0 ∨ (2 : Int) ^ (s2 - 1) ≤ (n : Int) := by
      rcases hlow2 with h | h
      · exact Or.inl h
      · exact Or.inr (by exact_mod_cast h)
    have a := two_pow_least n s hlow s2 hlt2i
    have b := two_pow_least n s2 hlow2i s hlt
    have hab : (2 : Int) ^ s2 = (2 : Int) ^ s := le_antisymm b a
    exact Nat.pow_right_injective (le_refl 2) (by exact_mod_cast hab)
  rw [hv, hs]
  push_cast
  rfl

/-- C15 at `n = 16`. -/
theorem nextPowerOf2_least_above_witness :
    (0 : Int) ≤ 16 ∧ (16 : Int) < 2 ^ 32 ∧
    ((∃ s : Nat, nextPowerOf2 16 = (2 : Int) ^ s ∧ (16 : Int) < (2 : Int) ^ s ∧
      (∀ j : Nat, (16 : Int) < (2 : Int) ^ j → (2 : Int) ^ s ≤ (2 : Int) ^ j) ∧
      NewWithSize Int 16 =
        some { elements := List.replicate (2 ^ s) (zero Int), head := 0, tail := 0 }) ∧
    nextPowerOf2 0 = 1 ∧ nextPowerOf2 1 = 2 ∧ nextPowerOf2 16 = 32) :=
  ⟨by decide, by decide, nextPowerOf2_least_above 16 (by decide) (by decide)⟩

/-- C16. Construction is not total: `NewWithSize(-1)` returns a deque whose buffer
has length 0, on which `AddLast` and `AddFirst` panic with an index out of range;
`NewWithSize(-(2^40))` panics in `make` with the negative length `-511`; and at
`2^32` the rounding yields `2^33 - 1`, which is not a power of two. -/
theorem NewWithSize_breaks_outside_range :
    NewWithSize Int (-1) = some { elements := [], head := 0, tail := 0 } ∧
    AddLast ({ elements := [], head := 0, tail := 0 } : deque Int) 1 = none ∧
    AddFirst ({ elements := [], head := 0, tail := 0 } : deque Int) 1 = none ∧
    nextPowerOf2 (-(2 ^ 40)) = -511 ∧ NewWithSize Int (-(2 ^ 40)) = none ∧
    nextPowerOf2 (2 ^ 32) = 2 ^ 33 - 1 ∧ ¬ ∃ k : Nat, nextPowerOf2 (2 ^ 32) = (2 : Int) ^ k := by
  refine ⟨by decide, by decide, by decide, by decide, by decide, by decide, ?_⟩
  rintro ⟨k, hk⟩
  have hv : nextPowerOf2 (2 ^ 32) = 2 ^ 33 - 1 := by decide
  rw [hv] at hk
  cases k with
  | zero => norm_num at hk
  | succ k =>
    have : ((2 : Int) ^ 33 - 1) % 2 = 1 := by decide
    rw [hk, pow_succ, Int.mul_emod_left] at this
    exact absurd this (by decide)

/-- C17, as stated, fails: after `New[int]()`, `AddFirst(1)` and `AddFirst(2)` the
two `RemoveLast()` calls return 1 and then 2, the insertion order, not its
reverse. -/
theorem back_drain_is_not_reversed :
    ∃ d0 dn dE rs, New Int = some d0 ∧ addFirstAll d0 [1, 2] = some dn ∧
      removeLastN dn 2 = some (rs, dE) ∧ rs = [(1, true), (2, true)] ∧
      rs ≠ [(2, true), (1, true)] := by
  obtain ⟨s, _, hnew, hwf0, _, _⟩ := NewWithSize_spec Int 16 (by norm_num) (by norm_num)
  obtain ⟨dn, dE, hn, hr⟩ := back_drain_from _ hwf0 rfl [1, 2]
  exact ⟨_, dn, dE, _, hnew, hn, hr, rfl, by decide⟩

/-- C17, amended. From a fresh (well-formed, empty) deque, such as the one
`New()` returns, after `AddFirst(e1), ..., AddFirst(en)` the `n` calls of
`RemoveLast()` return the elements in the order in which they were inserted
(`e1` first, `en` last), each with `true`. -/
theorem back_drain_returns_insertion_order {T : Type} [Inhabited T] (d0 : deque T)
    (hwf : WellFormed d0) (hemp : d0.head = d0.tail) (es : List T) :
    (∃ dn dE, addFirstAll d0 es = some dn ∧
      removeLastN dn es.length = some (es.map (fun e => (e, true)), dE)) ∧
    (∃ dNew dn dE, New T = some dNew ∧ addFirstAll dNew es = some dn ∧
      removeLastN dn es.length = some (es.map (fun e => (e, true)), dE)) := by
  refine ⟨back_drain_from d0 hwf hemp es, ?_⟩
  obtain ⟨s, _, hnew, hwf0, _, _⟩ := NewWithSize_spec T 16 (by norm_num) (by norm_num)
  obtain ⟨dn, dE, hn, hr⟩ := back_drain_from _ hwf0 rfl es
  exact ⟨_, dn, dE, hnew, hn, hr⟩

/-- C17, amended, at an empty deque of capacity 4 and the elements 1, 2, 3. -/
theorem back_drain_returns_insertion_order_witness :
    WellFormed ({ elements := [0, 0, 0, 0], head := 0, tail := 0 } : deque Int) ∧
    ({ elements := [0, 0, 0, 0], head := 0, tail := 0 } : deque Int).head =
      ({ elements := [0, 0, 0, 0], head := 0, tail := 0 } : deque Int).tail ∧
    ∃ dn dE, addFirstAll ({ elements := [0, 0, 0, 0], head := 0, tail := 0 } : deque Int)
        [1, 2, 3] = some dn ∧
      removeLastN dn 3 = some ([(1, true), (2, true), (3, true)], dE) :=
  have hwf : WellFormed ({ elements := [0, 0, 0, 0], head := 0, tail := 0 } : deque Int) :=
    ⟨⟨2, by decide⟩, by decide, by decide, by decide, by decide⟩
  ⟨hwf, rfl, (back_drain_returns_insertion_order _ hwf rfl [1, 2, 3]).1⟩

/-- C18. The representation invariant is kept by every operation: on a
well-formed deque each of `AddFirst`, `AddLast`, `RemoveFirst`, `RemoveLast` (and
`grow` on a full buffer) returns without an index out of range and leaves a
well-formed deque; after `AddFirst` or `AddLast` `head != tail`; and `New()` and
`NewWithSize(n)` for `0 ≤ n < 2 ^ 32` return well-formed deques. -/
theorem invariant_is_kept {T : Type} [Inhabited T] (d : deque T) (e : T)
    (hwf : WellFormed d) :
    (∃ d1, AddFirst d e = some d1 ∧ WellFormed d1 ∧ d1.head ≠ d1.tail) ∧
    (∃ d1, AddLast d e = some d1 ∧ WellFormed d1 ∧ d1.head ≠ d1.tail) ∧
    (∃ r d1, RemoveFirst d = some (r, d1) ∧ WellFormed d1) ∧
    (∃ r d1, RemoveLast d = some (r, d1) ∧ WellFormed d1) ∧
    (d.head = d.tail → ∃ d1, grow d = some d1 ∧ WellFormed d1) ∧
    (∃ d0, New T = some d0 ∧ WellFormed d0) ∧
    (∀ n : Int, 0 ≤ n → n < 2 ^ 32 → ∃ d0, NewWithSize T n = some d0 ∧ WellFormed d0) := by
  refine ⟨?_, ?_, ?_, ?_, ?_, ?_, ?_⟩
  · obtain ⟨d1, h1, hwf1, hne, _⟩ := AddFirst_total d e hwf
    exact ⟨d1, h1, hwf1, hne⟩
  · obtain ⟨d1, h1, hwf1, hne, _⟩ := AddLast_total d e hwf
    exact ⟨d1, h1, hwf1, hne⟩
  · obtain ⟨r, d1, h1, hwf1, _⟩ := RemoveFirst_total d hwf
    exact ⟨r, d1, h1, hwf1⟩
  · obtain ⟨r, d1, h1, hwf1, _⟩ := RemoveLast_total d hwf
    exact ⟨r, d1, h1, hwf1⟩
  · intro hfull
    obtain ⟨d1, h1, hwf1, _⟩ := grow_total d hwf hfull
    exact ⟨d1, h1, hwf1⟩
  · obtain ⟨s, _, hnew, hwf0, _⟩ := NewWithSize_spec T 16 (by norm_num) (by norm_num)
    exact ⟨_, hnew, hwf0⟩
  · intro n h0 h1
    obtain ⟨s, _, hnew, hwf0, _⟩ := NewWithSize_spec T n h0 h1
    exact ⟨_, hnew, hwf0⟩

/-- C18 at a concrete deque one insertion away from full, where both insertions
trigger `grow`. -/
theorem invariant_is_kept_witness :
    WellFormed ({ elements := [3, 0, 1, 2], head := 2, tail := 1 } : deque Int) ∧
    (∃ d1, AddFirst ({ elements := [3, 0, 1, 2], head := 2, tail := 1 } : deque Int) 9 =
        some d1 ∧ WellFormed d1 ∧ d1.head ≠ d1.tail) ∧
    (∃ d1, AddLast ({ elements := [3, 0, 1, 2], head := 2, tail := 1 } : deque Int) 9 =
        some d1 ∧ WellFormed d1 ∧ d1.head ≠ d1.tail) :=
  have hwf : WellFormed ({ elements := [3, 0, 1, 2], head := 2, tail := 1 } : deque Int) :=
    ⟨⟨2, by decide⟩, by decide, by decide, by decide, by decide⟩
  ⟨hwf, (invariant_is_kept _ 9 hwf).1, (invariant_is_kept _ 9 hwf).2.1⟩

/-- C19. Removed and unused slots hold the zero value: in every state reached
from `NewWithSize(n)` (`0 ≤ n < 2 ^ 32`) or `New()` by any sequence of `AddFirst`,
`AddLast`, `RemoveFirst` and `RemoveLast` calls, every call returns and every slot
whose index is not a logical index `(head + i) mod cap`, `0 ≤ i < Len()`, is zero;
and a successful `RemoveFirst` or `RemoveLast` leaves zero in the slot that held
the element it returns. -/
theorem unused_slots_are_zero {T : Type} [Inhabited T] (n : Int) (h0 : 0 ≤ n)
    (h1 : n < 2 ^ 32) (cs : List (Call T)) :
    (∃ d0 d1, NewWithSize T n = some d0 ∧ applyCalls d0 cs = some d1 ∧
      WellFormed d1 ∧ ZeroOutside d1) ∧
    (∃ d0 d1, New T = some d0 ∧ applyCalls d0 cs = some d1 ∧
      WellFormed d1 ∧ ZeroOutside d1) ∧
    (∀ d : deque T, WellFormed d → d.head ≠ d.tail →
      ∃ x d1, RemoveFirst d = some ((x, true), d1) ∧ index d.elements d.head = some x ∧
        index d1.elements d.head = some (zero T)) ∧
    (∀ d : deque T, WellFormed d → d.head ≠ d.tail →
      ∃ x d1, RemoveLast d = some ((x, true), d1) ∧
        d1.tail = (d.tail - 1) % (d.elements.length : Int) ∧
        index d.elements d1.tail = some x ∧ index d1.elements d1.tail = some (zero T)) := by
  refine ⟨?_, ?_, fun d hwf hne => RemoveFirst_slot d hwf hne,
    fun d hwf hne => RemoveLast_slot d hwf hne⟩
  · obtain ⟨s, _, hnew, hwf0, _⟩ := NewWithSize_spec T n h0 h1
    obtain ⟨d1, hd1, hwf1, hz1⟩ := applyCalls_inv cs _ hwf0 (ZeroOutside_fresh (2 ^ s))
    exact ⟨_, d1, hnew, hd1, hwf1, hz1⟩
  · obtain ⟨s, _, hnew, hwf0, _⟩ := NewWithSize_spec T 16 (by norm_num) (by norm_num)
    obtain ⟨d1, hd1, hwf1, hz1⟩ := applyCalls_inv cs _ hwf0 (ZeroOutside_fresh (2 ^ s))
    exact ⟨_, d1, hnew, hd1, hwf1, hz1⟩

/-- C19 at `NewWithSize(1)` and a run of insertions and removals that grows the
buffer and wraps around its end. -/
theorem unused_slots_are_zero_witness :
    (0 : Int) ≤ 1 ∧ (1 : Int) < 2 ^ 32 ∧
    ∃ d0 d1, NewWithSize Int 1 = some d0 ∧
      applyCalls d0 [Call.addLast 1, Call.addFirst 2, Call.addLast 3, Call.removeFirst,
        Call.addFirst 4, Call.removeLast, Call.removeLast] = some d1 ∧
      WellFormed d1 ∧ ZeroOutside d1 :=
  ⟨by decide, by decide, (unused_slots_are_zero 1 (by decide) (by decide) _).1⟩

/-- C20. Capacity doubles exactly when an insert fills the buffer and never
shrinks: on a well-formed deque, after `AddFirst` or `AddLast` the buffer length
is `2 * cap` with `head = 0` and `tail = cap` if `Len()` was `cap - 1`, and still
`cap` otherwise; `RemoveFirst` and `RemoveLast` return with the buffer length
unchanged; `PeekFirst` returns and `PeekLast`, whenever it returns, leave the
deque as it was.  `Len`, `IsEmpty` and `AsSlice` have no assignment to the deque
in the source and are functions of the deque alone. -/
theorem capacity_doubles_when_full {T : Type} [Inhabited T] (d : deque T) (e : T)
    (hwf : WellFormed d) :
    (∃ d1, AddFirst d e = some d1 ∧
      (Len d = (d.elements.length : Int) - 1 →
        (d1.elements.length : Int) = 2 * (d.elements.length : Int) ∧ d1.head = 0 ∧
          d1.tail = (d.elements.length : Int)) ∧
      (Len d ≠ (d.elements.length : Int) - 1 → d1.elements.length = d.elements.length)) ∧
    (∃ d1, AddLast d e = some d1 ∧
      (Len d = (d.elements.length : Int) - 1 →
        (d1.elements.length : Int) = 2 * (d.elements.length : Int) ∧ d1.head = 0 ∧
          d1.tail = (d.elements.length : Int)) ∧
      (Len d ≠ (d.elements.length : Int) - 1 → d1.elements.length = d.elements.length)) ∧
    (∃ r d1, RemoveFirst d = some (r, d1) ∧ d1.elements.length = d.elements.length) ∧
    (∃ r d1, RemoveLast d = some (r, d1) ∧ d1.elements.length = d.elements.length) ∧
    (∃ r, PeekFirst d = some (r, d)) ∧
    (∀ r d1, PeekLast d = some (r, d1) → d1 = d) := by
  refine ⟨AddFirst_shape d e hwf, AddLast_shape d e hwf, ?_, ?_, PeekFirst_total d hwf,
    fun r d1 h => PeekLast_unchanged d d1 r h⟩
  · obtain ⟨r, d1, h1, _, hl, _⟩ := RemoveFirst_total d hwf
    exact ⟨r, d1, h1, hl⟩
  · obtain ⟨r, d1, h1, _, hl, _⟩ := RemoveLast_total d hwf
    exact ⟨r, d1, h1, hl⟩

/-- C20 at a concrete deque holding `cap - 1 = 3` elements, where `AddLast`
doubles the buffer. -/
theorem capacity_doubles_when_full_witness :
    WellFormed ({ elements := [3, 0, 1, 2], head := 2, tail := 1 } : deque Int) ∧
    ∃ d1, AddLast ({ elements := [3, 0, 1, 2], head := 2, tail := 1 } : deque Int) 4 =
        some d1 ∧
      (Len ({ elements := [3, 0, 1, 2], head := 2, tail := 1 } : deque Int) =
          ((4 : Nat) : Int) - 1 →
        (d1.elements.length : Int) = 2 * ((4 : Nat) : Int) ∧ d1.head = 0 ∧
          d1.tail = ((4 : Nat) : Int)) ∧
      (Len ({ elements := [3, 0, 1, 2], head := 2, tail := 1 } : deque Int) ≠
          ((4 : Nat) : Int) - 1 → d1.elements.length = 4) :=
  have hwf : WellFormed ({ elements := [3, 0, 1, 2], head := 2, tail := 1 } : deque Int) :=
    ⟨⟨2, by decide⟩, by decide, by decide, by decide, by decide⟩
  ⟨hwf, (capacity_doubles_when_full _ 4 hwf).2.1⟩

end Deque
